import Mathlib

/-!
Shallow embedding of the ever-archive core (container reader, entry-identifier
codec, archive assembler, shard consistency checker) together with proofs about
the claims of the specification.

Machine integers are modelled as `Nat` (unsigned) and `Int` (signed) with
explicit `% 2^w` wrapping where Rust release-mode overflow matters.  Byte
buffers are `List Nat`.  Strings are `List Char`.  Fallible Rust code returns
`Except`; Rust panics (index out of range, overflow in debug, `unwrap`) are a
distinguished outcome of the embedding, never an undefined value.
-/

namespace EverArchive

/-- Wrapping 64-bit (usize) addition, Rust release-mode semantics. -/
def add64 (a b : Nat) : Nat := (a + b) % (2 ^ 64)

/-- Byte lookup `buf[i]`: `none` models the Rust index-out-of-bounds panic. -/
def getV (buf : List Nat) (i : Nat) : Option Nat :=
  if i < buf.length then buf[i]? else none

/-- Slice `buf[a..b]`: `none` models the Rust slice-index panic
(start after end, or end past the length). -/
def sliceV (buf : List Nat) (a b : Nat) : Option (List Nat) :=
  if a ≤ b ∧ b ≤ buf.length then some ((buf.drop a).take (b - a)) else none

/-! ## Shard identifiers and block identifiers (data model) -/

/-- A shard identifier: a workchain number (Rust `i32`, embedded as `Int`)
and a 64-bit tagged shard prefix value (field `pfx`, named `prefix` in the
source).  The masterchain is workchain `-1`. -/
structure ShardIdent where
  workchain : Int
  pfx : Nat
deriving DecidableEq

/-- Lowest set bit of `p` (the tag bit of a shard prefix); `0` for `p = 0`. -/
def shardLowBit (p : Nat) : Nat := p - (p &&& (p - 1))

/-- Modelled from the spec: `ShardIdent::new` of the external `everscale_types`
crate (not part of this repository).  Validates that the tagged prefix encodes
a legal shard: non-zero tag bit and depth at most the maximum split depth
(tag bit at position at least 3), with the workchain in `i32` range and the
prefix a 64-bit value. -/
def ShardIdent.new (wc : Int) (p : Nat) : Option ShardIdent :=
  if -(2 ^ 31) ≤ wc ∧ wc < 2 ^ 31 ∧ p < 2 ^ 64 ∧ p ≠ 0 ∧ 2 ^ 3 ≤ shardLowBit p
  then some ⟨wc, p⟩ else none

/-- Modelled from the spec: `ShardIdent::split` of the external
`everscale_types` crate.  Pure bit operation: the tag bit moves one position
down, producing the two children; fails at maximum depth. -/
def ShardIdent.split (s : ShardIdent) : Option (ShardIdent × ShardIdent) :=
  let tag := shardLowBit s.pfx
  if tag ≤ 2 ^ 3 then none
  else some (⟨s.workchain, s.pfx - tag / 2⟩, ⟨s.workchain, s.pfx + tag / 2⟩)

/-- Modelled from the spec: `ShardIdent::merge` of the external
`everscale_types` crate.  Pure bit operation: clears the tag bit and sets the
next higher one, producing the parent; fails for a root (full) shard. -/
def ShardIdent.merge (s : ShardIdent) : Option ShardIdent :=
  let tag := shardLowBit s.pfx
  if s.pfx = 2 ^ 63 then none
  else some ⟨s.workchain, (s.pfx - tag) ||| (2 * tag)⟩

/-- A block identifier: shard, sequence number (`u32`) and the two 256-bit
hashes, kept as 32-byte lists. -/
structure BlockId where
  shard : ShardIdent
  seqno : Nat
  root_hash : List Nat
  file_hash : List Nat
deriving DecidableEq

/-! ## Error types (from the source) -/

inductive ArchivePackageError where
  | InvalidArchiveHeader
  | UnexpectedArchiveEof
  | InvalidArchiveEntryHeader
  | InvalidArchiveEntryName
  | UnexpectedEntryEof
  | TooSmallInitialBatch
deriving DecidableEq

inductive PackageEntryIdError where
  | InvalidFileName
  | ShardIdNotFound
  | WorkchainIdNotFound
  | InvalidWorkchainId
  | ShardPrefixNotFound
  | InvalidShardPfx
  | InvalidShardIdent
  | SeqnoNotFound
  | InvalidSeqno
  | RootHashNotFound
  | InvalidRootHash
  | FileHashNotFound
  | InvalidFileHash
deriving DecidableEq

inductive ArchiveDataError where
  | InvalidPackage (e : ArchivePackageError)
  | InvalidPackageEntryId (e : PackageEntryIdError)
  | EmptyArchive
  | InconsistentMasterchainBlocks
  | InconsistentShardchainBlock (shard_ident : ShardIdent) (seqno : Nat)
  | BlockDataNotFound
  | BlockProofNotFound
  | InvalidFileHash
  | InvalidRootHash
  | InvalidBlockData
  | InvalidBlockProof
  | ProofForAnotherBlock
  | ProofForNonMasterchainBlock
deriving DecidableEq

/-! ## Entry identifier codec: encoding (`GetFileName::filename`) -/

/-- Decimal digit character, as produced by Rust `Display` for integers. -/
def decDigitChar : Nat → Char
  | 0 => '0' | 1 => '1' | 2 => '2' | 3 => '3' | 4 => '4'
  | 5 => '5' | 6 => '6' | 7 => '7' | 8 => '8' | _ => '9'

/-- Lowercase hex digit character, as produced by Rust `{:x}` formatting. -/
def hexDigitCharLower : Nat → Char
  | 0 => '0' | 1 => '1' | 2 => '2' | 3 => '3' | 4 => '4'
  | 5 => '5' | 6 => '6' | 7 => '7' | 8 => '8' | 9 => '9'
  | 10 => 'a' | 11 => 'b' | 12 => 'c' | 13 => 'd' | 14 => 'e' | _ => 'f'

/-- Uppercase hex digit character, as produced by `hex::encode_upper`. -/
def hexDigitCharUpper : Nat → Char
  | 0 => '0' | 1 => '1' | 2 => '2' | 3 => '3' | 4 => '4'
  | 5 => '5' | 6 => '6' | 7 => '7' | 8 => '8' | 9 => '9'
  | 10 => 'A' | 11 => 'B' | 12 => 'C' | 13 => 'D' | 14 => 'E' | _ => 'F'

/-- Little-endian digits of `n` in the given base, by fueled division.
Fuel 64 is enough for every value a Rust `u64`/`u32`/`i32` formatting call
can receive (all are below `base ^ 64` for `base ≥ 2`), and a fueled
definition lets proofs evaluate the encoder by kernel reduction. -/
def digitsRevFuel (base : Nat) : Nat → Nat → List Nat
  | 0, _ => []
  | fuel + 1, n =>
    if n = 0 then [] else n % base :: digitsRevFuel base fuel (n / base)

/-- Decimal rendering of a natural number (Rust `{}` for unsigned integers). -/
def natDecChars (n : Nat) : List Char :=
  if n = 0 then ['0'] else (digitsRevFuel 10 64 n).reverse.map decDigitChar

/-- Decimal rendering of an integer (Rust `{}` for `i32`). -/
def intDecChars (i : Int) : List Char :=
  if i < 0 then '-' :: natDecChars i.natAbs else natDecChars i.toNat

/-- Minimal lowercase hex rendering of a natural number. -/
def natHexCharsLower (n : Nat) : List Char :=
  if n = 0 then ['0'] else (digitsRevFuel 16 64 n).reverse.map hexDigitCharLower

/-- Rust `{:016x}`: lowercase hex, left-padded with zeros to 16 digits. -/
def hex16Lower (n : Nat) : List Char :=
  List.replicate (16 - (natHexCharsLower n).length) '0' ++ natHexCharsLower n

/-- `hex::encode_upper`: two uppercase hex digits per byte. -/
def bytesHexUpper (bs : List Nat) : List Char :=
  bs.flatMap fun b => [hexDigitCharUpper (b / 16), hexDigitCharUpper (b % 16)]

/-- `BlockId` filename body from `GetFileName for ton_block::BlockId`:
`({workchain},{prefix:016x},{seqno}):{root hex upper}:{file hex upper}`. -/
def BlockId.filename (id : BlockId) : List Char :=
  ['('] ++ intDecChars id.shard.workchain ++ [','] ++ hex16Lower id.shard.pfx
    ++ [','] ++ natDecChars id.seqno ++ [')'] ++ [':']
    ++ bytesHexUpper id.root_hash ++ [':'] ++ bytesHexUpper id.file_hash

inductive PackageEntryId (I : Type) where
  | Block (id : I)
  | Proof (id : I)
  | ProofLink (id : I)
deriving DecidableEq

/-- The constant `PACKAGE_ENTRY_BLOCK`. -/
def entryTagBlock : List Char := ['b', 'l', 'o', 'c', 'k', '_']

/-- The constant `PACKAGE_ENTRY_PROOF`. -/
def entryTagProof : List Char := ['p', 'r', 'o', 'o', 'f', '_']

/-- The constant `PACKAGE_ENTRY_PROOF_LINK`. -/
def entryTagProofLink : List Char :=
  ['p', 'r', 'o', 'o', 'f', 'l', 'i', 'n', 'k', '_']

/-- `PackageEntryId::filename_prefix`. -/
def PackageEntryId.filenameTag : PackageEntryId I → List Char
  | .Block _ => entryTagBlock
  | .Proof _ => entryTagProof
  | .ProofLink _ => entryTagProofLink

/-- The identifier carried by a `PackageEntryId`. -/
def PackageEntryId.blockId : PackageEntryId I → I
  | .Block id => id
  | .Proof id => id
  | .ProofLink id => id

/-- `GetFileName for PackageEntryId`: kind tag followed by the id filename. -/
def PackageEntryId.filename (e : PackageEntryId BlockId) : List Char :=
  e.filenameTag ++ e.blockId.filename

/-! ## Entry identifier codec: decoding (`PackageEntryId::from_filename`) -/

/-- Result of fallible Rust code that can also panic: `panicked` models a
Rust panic (here, the `unwrap` in `parse_block_id`). -/
inductive PRes (ε α : Type) where
  | ok (a : α)
  | err (e : ε)
  | panicked
deriving DecidableEq

/-- Rust `str::split(sep)` on a character separator: always yields at least
one (possibly empty) piece. -/
def splitOnChar (sep : Char) : List Char → List (List Char)
  | [] => [[]]
  | c :: t =>
    if c = sep then [] :: splitOnChar sep t
    else
      match splitOnChar sep t with
      | h :: t2 => (c :: h) :: t2
      | [] => [[c]]

/-- Value of a decimal digit character (`char::to_digit(10)`). -/
def decDigitVal (c : Char) : Option Nat :=
  if 48 ≤ c.toNat ∧ c.toNat ≤ 57 then some (c.toNat - 48) else none

/-- Value of a hex digit character, both cases (`char::to_digit(16)`). -/
def hexDigitVal (c : Char) : Option Nat :=
  if 48 ≤ c.toNat ∧ c.toNat ≤ 57 then some (c.toNat - 48)
  else if 97 ≤ c.toNat ∧ c.toNat ≤ 102 then some (c.toNat - 87)
  else if 65 ≤ c.toNat ∧ c.toNat ≤ 70 then some (c.toNat - 55)
  else none

/-- Digit-sequence parsing: fails on an empty string or any non-digit.
Rust errors on intermediate overflow; here the full value is accumulated and
the caller applies the type's range check, which has the same result. -/
def parseNatBase (base : Nat) (digitVal : Char → Option Nat)
    (s : List Char) : Option Nat :=
  if s = [] then none
  else s.foldl (fun acc c => acc.bind fun a => (digitVal c).map (a * base + ·))
    (some 0)

/-- Rust `i32::from_str`: optional sign, decimal digits, `i32` range check. -/
def i32FromStr (s : List Char) : Option Int :=
  match s with
  | [] => none
  | c :: t =>
    if c = '-' then
      (parseNatBase 10 decDigitVal t).bind fun v =>
        if v ≤ 2 ^ 31 then some (-(v : Int)) else none
    else if c = '+' then
      (parseNatBase 10 decDigitVal t).bind fun v =>
        if v < 2 ^ 31 then some (v : Int) else none
    else
      (parseNatBase 10 decDigitVal (c :: t)).bind fun v =>
        if v < 2 ^ 31 then some (v : Int) else none

/-- Rust `u32::from_str`: optional leading plus, decimal digits, range check
(a leading minus fails on the digit parse, as in Rust). -/
def u32FromStr (s : List Char) : Option Nat :=
  match s with
  | [] => none
  | c :: t =>
    (parseNatBase 10 decDigitVal (if c = '+' then t else c :: t)).bind fun v =>
      if v < 2 ^ 32 then some v else none

/-- Rust `u64::from_str_radix(s, 16)`: optional leading plus, hex digits of
either case, range check. -/
def u64FromHexStr (s : List Char) : Option Nat :=
  match s with
  | [] => none
  | c :: t =>
    (parseNatBase 16 hexDigitVal (if c = '+' then t else c :: t)).bind fun v =>
      if v < 2 ^ 64 then some v else none

/-- Rust `hex::decode`: fails on odd length or any non-hex character. -/
def hexDecodeChars : List Char → Option (List Nat)
  | [] => some []
  | [_] => none
  | c1 :: c2 :: rest =>
    match hexDigitVal c1, hexDigitVal c2 with
    | some h, some l => (hexDecodeChars rest).map ((16 * h + l) :: ·)
    | _, _ => none

/-- Rust `str::strip_suffix(Char)` for the closing parenthesis. -/
def stripRParen (l : List Char) : Option (List Char) :=
  if l.getLast? = some ')' then some l.dropLast else none

/-- `parse_block_id` from `package_entry_id.rs`.  The final
`try_into().unwrap()` calls on the decoded hash byte vectors panic when a
hash is not exactly 32 bytes; this is the `panicked` outcome. -/
def parse_block_id (s : List Char) : PRes PackageEntryIdError BlockId :=
  match splitOnChar ':' s with
  | [] => .err .ShardIdNotFound
  | shard_id :: parts1 =>
    match splitOnChar ',' shard_id with
    | [] => .err .WorkchainIdNotFound
    | sp0 :: sparts1 =>
      match sp0 with
      | '(' :: wcs =>
        match i32FromStr wcs with
        | none => .err .InvalidWorkchainId
        | some workchain_id =>
          match sparts1 with
          | [] => .err .ShardPrefixNotFound
          | sp1 :: sparts2 =>
            match u64FromHexStr sp1 with
            | none => .err .InvalidShardPfx
            | some shard_prefix_tagged =>
              match sparts2 with
              | [] => .err .SeqnoNotFound
              | sp2 :: _ =>
                match stripRParen sp2 with
                | none => .err .SeqnoNotFound
                | some sq =>
                  match u32FromStr sq with
                  | none => .err .InvalidSeqno
                  | some seq_no =>
                    match ShardIdent.new workchain_id shard_prefix_tagged with
                    | none => .err .InvalidShardPfx
                    | some shard_id2 =>
                      match parts1 with
                      | [] => .err .RootHashNotFound
                      | rh :: parts2 =>
                        match hexDecodeChars rh with
                        | none => .err .InvalidRootHash
                        | some root_hash =>
                          match parts2 with
                          | [] => .err .FileHashNotFound
                          | fh :: _ =>
                            match hexDecodeChars fh with
                            | none => .err .InvalidFileHash
                            | some file_hash =>
                              if root_hash.length = 32 then
                                if file_hash.length = 32 then
                                  .ok ⟨shard_id2, seq_no, root_hash, file_hash⟩
                                else .panicked
                              else .panicked
      | _ => .err .WorkchainIdNotFound

/-- Applies a result-preserving wrapper, as the `Ok(match ...)` in the
source wraps the parsed id in the matched kind. -/
def PRes.wrap (f : α → β) : PRes ε α → PRes ε β
  | .ok a => .ok (f a)
  | .err e => .err e
  | .panicked => .panicked

/-- `PackageEntryId::from_filename`: splits at the first left parenthesis
(the part before the first left parenthesis and the rest from it on, as
`filename.split_at` of the `find` position produces), matches the kind tag,
parses the block id. -/
def from_filename (s : List Char) :
    PRes PackageEntryIdError (PackageEntryId BlockId) :=
  if (s.takeWhile (fun c => c ≠ '(')).length = s.length then
    .err .InvalidFileName
  else if s.takeWhile (fun c => c ≠ '(') = entryTagBlock then
    (parse_block_id (s.drop (s.takeWhile (fun c => c ≠ '(')).length)).wrap
      .Block
  else if s.takeWhile (fun c => c ≠ '(') = entryTagProof then
    (parse_block_id (s.drop (s.takeWhile (fun c => c ≠ '(')).length)).wrap
      .Proof
  else if s.takeWhile (fun c => c ≠ '(') = entryTagProofLink then
    (parse_block_id (s.drop (s.takeWhile (fun c => c ≠ '(')).length)).wrap
      .ProofLink
  else .err .InvalidFileName

/-! ## Container reader (`archive_package.rs`) -/

/-- The constant `ARCHIVE_PREFIX`: little-endian bytes of `0xae8fdd01`. -/
def archiveMagicBytes : List Nat := [0x01, 0xdd, 0x8f, 0xae]

/-- The constant `ARCHIVE_ENTRY_PREFIX`: little-endian bytes of `0x1e8b`. -/
def entryMagicBytes : List Nat := [0x8b, 0x1e]

/-- UTF-8 validation and decoding (`std::str::from_utf8` plus reading the
characters): rejects overlong forms, surrogates and values beyond
`0x10FFFF`. -/
def utf8Decode : List Nat → Option (List Char)
  | [] => some []
  | b :: rest =>
    if b < 0x80 then
      (utf8Decode rest).map (Char.ofNat b :: ·)
    else if b < 0xC2 then none
    else if b < 0xE0 then
      match rest with
      | b1 :: r =>
        if 0x80 ≤ b1 ∧ b1 < 0xC0 then
          (utf8Decode r).map (Char.ofNat ((b - 0xC0) * 64 + (b1 - 0x80)) :: ·)
        else none
      | _ => none
    else if b < 0xF0 then
      match rest with
      | b1 :: b2 :: r =>
        let lo1 := if b = 0xE0 then 0xA0 else 0x80
        let hi1 := if b = 0xED then 0xA0 else 0xC0
        if (lo1 ≤ b1 ∧ b1 < hi1) ∧ (0x80 ≤ b2 ∧ b2 < 0xC0) then
          (utf8Decode r).map
            (Char.ofNat ((b - 0xE0) * 4096 + (b1 - 0x80) * 64 + (b2 - 0x80)) :: ·)
        else none
      | _ => none
    else if b < 0xF5 then
      match rest with
      | b1 :: b2 :: b3 :: r =>
        let lo1 := if b = 0xF0 then 0x90 else 0x80
        let hi1 := if b = 0xF4 then 0x90 else 0xC0
        if (lo1 ≤ b1 ∧ b1 < hi1) ∧ (0x80 ≤ b2 ∧ b2 < 0xC0) ∧
            (0x80 ≤ b3 ∧ b3 < 0xC0) then
          (utf8Decode r).map
            (Char.ofNat ((b - 0xF0) * 262144 + (b1 - 0x80) * 4096 +
              (b2 - 0x80) * 64 + (b3 - 0x80)) :: ·)
        else none
      | _ => none
    else none

/-- Outcome of `ArchivePackageEntryView::read_from_view`: an entry is the
decoded name, the data bytes and the advanced cursor; `panicked` models a
Rust panic (out-of-range index after a wrapped offset computation). -/
inductive ReadResult where
  | ok (entry : Option (List Char × List Nat × Nat))
  | err (e : ArchivePackageError)
  | panicked
deriving DecidableEq

/-- `read_package_header`: checks the four magic bytes.  The source guard
`buf.len() < end + 4 || end > end + 4` is evaluated with release-mode
wrapping, so a wrapped `end + 4` is caught by the second disjunct and
reported as `UnexpectedArchiveEof`.  Returns the advanced offset. -/
def read_package_header (buf : List Nat) (offset : Nat) :
    Except ArchivePackageError Nat :=
  let e := offset
  if buf.length < add64 e 4 ∨ e > add64 e 4 then .error .UnexpectedArchiveEof
  else
    match sliceV buf e (add64 e 4) with
    | none => .error .UnexpectedArchiveEof
    | some magic =>
      if magic = archiveMagicBytes then .ok (e + 4)
      else .error .InvalidArchiveHeader

/-- `ArchivePackageEntryView::read_from_view`, release-mode semantics: every
offset addition wraps modulo `2^64` and any out-of-range index is a panic.
The intermediate offsets of the source (`*offset += 2` after the magic,
`+= 2` after the filename size, `+= 4` after the data size, then the two
slice advances) are spelled out as nested `add64` applications. -/
def read_from_view (buf : List Nat) (offset : Nat) : ReadResult :=
  if buf.length < add64 offset 8 then .ok none
  else
    match sliceV buf offset (add64 offset 2) with
    | none => .panicked
    | some magic =>
      if magic ≠ entryMagicBytes then .err .InvalidArchiveEntryHeader
      else
        match getV buf (add64 offset 2), getV buf (add64 offset 3) with
        | some a0, some a1 =>
          match getV buf (add64 offset 4), getV buf (add64 offset 5),
              getV buf (add64 offset 6), getV buf (add64 offset 7) with
          | some c0, some c1, some c2, some c3 =>
            if buf.length <
                add64 (add64 (add64 offset 8) (a0 + 256 * a1))
                  (c0 + 256 * c1 + 65536 * c2 + 16777216 * c3) then
              .err .UnexpectedEntryEof
            else
              match sliceV buf (add64 offset 8)
                  (add64 (add64 offset 8) (a0 + 256 * a1)) with
              | none => .panicked
              | some nameBytes =>
                match utf8Decode nameBytes with
                | none => .err .InvalidArchiveEntryName
                | some name =>
                  match sliceV buf (add64 (add64 offset 8) (a0 + 256 * a1))
                      (add64 (add64 (add64 offset 8) (a0 + 256 * a1))
                        (c0 + 256 * c1 + 65536 * c2 + 16777216 * c3)) with
                  | none => .panicked
                  | some data =>
                    .ok (some (name, data,
                      add64 (add64 (add64 offset 8) (a0 + 256 * a1))
                        (c0 + 256 * c1 + 65536 * c2 + 16777216 * c3)))
          | _, _, _, _ => .panicked
        | _, _ => .panicked

/-! ## External payload decoders (collaborators, opaque per the spec) -/

/-- A decoded cell: the spec treats payload decoding as opaque; the only
field the core reads is the representation hash (`repr_hash`). -/
structure Cell where
  repr_hash : List Nat
deriving DecidableEq

/-- An opaque decoded block payload (spec non-goal: its fields are never
inspected by the core). -/
structure Block where
  tag : Nat
deriving DecidableEq

/-- A decoded block proof payload: the core reads only the embedded
`proof_for` identifier. -/
structure BlockProof where
  proof_for : BlockId
deriving DecidableEq

/-- The external decoder interface the core depends on (spec section 6):
a content hash, `Boc::decode`, `Block::load_from` and
`BlockProof::load_from`.  The claims quantify over these functions. -/
structure ExtCodecs where
  sha256 : List Nat → List Nat
  bocDecode : List Nat → Option Cell
  blockLoad : Cell → Option Block
  proofLoad : Cell → Option BlockProof

/-! ## Archive assembler and checker (`archive_data.rs`) -/

/-- `deserialize_block`: file-hash check first, then BOC decode, then
root-hash check, then payload load. -/
def deserialize_block (ext : ExtCodecs) (id : BlockId) (data : List Nat) :
    Except ArchiveDataError Block :=
  if id.file_hash ≠ ext.sha256 data then .error .InvalidFileHash
  else
    match ext.bocDecode data with
    | none => .error .InvalidBlockData
    | some root =>
      if id.root_hash ≠ root.repr_hash then .error .InvalidRootHash
      else
        match ext.blockLoad root with
        | none => .error .InvalidBlockData
        | some b => .ok b

/-- Bitwise NOT of an `i32` value (two's complement): `!x = -1 - x`.  The
source guard is `!block_id.shard.workchain() == -1 && !is_link`; Rust unary
`!` on an integer is bitwise NOT and binds tighter than `==`, so the
condition compares `-1 - workchain` with `-1`, which holds exactly for
workchain `0`. -/
def i32BitNot (x : Int) : Int := -1 - x

/-- `deserialize_block_proof`: BOC decode and proof load (both failures are
`InvalidBlockProof`), then the proof-for check, then the source's
masterchain guard with its literal `!workchain == -1` condition. -/
def deserialize_block_proof (ext : ExtCodecs) (block_id : BlockId)
    (data : List Nat) (is_link : Bool) : Except ArchiveDataError BlockProof :=
  match ext.bocDecode data with
  | none => .error .InvalidBlockProof
  | some root =>
    match ext.proofLoad root with
    | none => .error .InvalidBlockProof
    | some proof =>
      if proof.proof_for ≠ block_id then .error .ProofForAnotherBlock
      else if i32BitNot block_id.shard.workchain = -1 ∧ is_link = false then
        .error .ProofForNonMasterchainBlock
      else .ok proof

/-- A record of the store: optional decoded block and proof, each with its
backing bytes (`ArchiveDataEntry`). -/
structure ArchiveDataEntry where
  block : Option (Block × List Nat)
  proof : Option (BlockProof × List Nat)
deriving DecidableEq

/-- The default (empty) record. -/
def ArchiveDataEntry.default : ArchiveDataEntry := ⟨none, none⟩

/-- The assembled store: the masterchain index (`BTreeMap<u32, BlockId>`,
modelled as a key-sorted association list) and the per-block record map
(`BTreeMap<BlockId, ArchiveDataEntry>`, modelled as an association list). -/
structure ArchiveData where
  mc_block_ids : List (Nat × BlockId)
  blocks : List (BlockId × ArchiveDataEntry)
deriving DecidableEq

/-- `BTreeMap::insert` for the masterchain index: keeps keys strictly
sorted, replaces the value of an existing key. -/
def insertMc (m : List (Nat × BlockId)) (k : Nat) (v : BlockId) :
    List (Nat × BlockId) :=
  match m with
  | [] => [(k, v)]
  | (k0, v0) :: t =>
    if k < k0 then (k, v) :: (k0, v0) :: t
    else if k = k0 then (k, v) :: t
    else (k0, v0) :: insertMc t k v

/-- `blocks.entry(id).or_insert_with(default)` followed by a field update:
update-or-append on the association list. -/
def updateBlocks (m : List (BlockId × ArchiveDataEntry)) (id : BlockId)
    (f : ArchiveDataEntry → ArchiveDataEntry) :
    List (BlockId × ArchiveDataEntry) :=
  match m with
  | [] => [(id, f ArchiveDataEntry.default)]
  | (k, v) :: t =>
    if k = id then (k, f v) :: t else (k, v) :: updateBlocks t id f

/-- Outcome of `ArchiveData::new`: `panicked` models a Rust panic reached
through the reader or the codec, `fuelExhausted` is a modelling artifact of
the bounded loop (never reached with the fuel chosen in `ArchiveData.new`,
and distinct from every source outcome). -/
inductive NewResult where
  | ok (a : ArchiveData)
  | err (e : ArchiveDataError)
  | panicked
  | fuelExhausted
deriving DecidableEq

/-- The entry-processing loop of `ArchiveData::new`: read an entry, decode
its identifier, dispatch by kind with the masterchain guards of the source,
deserialize and record. -/
def newLoop (ext : ExtCodecs) (buf : List Nat) :
    Nat → Nat → ArchiveData → NewResult
  | 0, _, _ => .fuelExhausted
  | fuel + 1, offset, acc =>
    match read_from_view buf offset with
    | .panicked => .panicked
    | .err e => .err (.InvalidPackage e)
    | .ok none => .ok acc
    | .ok (some (name, data, offset2)) =>
      match from_filename name with
      | .panicked => .panicked
      | .err e => .err (.InvalidPackageEntryId e)
      | .ok (.Block id) =>
        match deserialize_block ext id data with
        | .error e => .err e
        | .ok block =>
          newLoop ext buf fuel offset2
            (if id.shard.workchain = -1 then
              ⟨insertMc acc.mc_block_ids id.seqno id,
               updateBlocks acc.blocks id fun r =>
                 { r with block := some (block, data) }⟩
            else
              ⟨acc.mc_block_ids,
               updateBlocks acc.blocks id fun r =>
                 { r with block := some (block, data) }⟩)
      | .ok (.Proof id) =>
        if id.shard.workchain = -1 then
          match deserialize_block_proof ext id data false with
          | .error e => .err e
          | .ok proof =>
            newLoop ext buf fuel offset2
              ⟨insertMc acc.mc_block_ids id.seqno id,
               updateBlocks acc.blocks id fun r =>
                 { r with proof := some (proof, data) }⟩
        else newLoop ext buf fuel offset2 acc
      | .ok (.ProofLink id) =>
        if id.shard.workchain ≠ -1 then
          match deserialize_block_proof ext id data true with
          | .error e => .err e
          | .ok proof =>
            newLoop ext buf fuel offset2
              ⟨acc.mc_block_ids,
               updateBlocks acc.blocks id fun r =>
                 { r with proof := some (proof, data) }⟩
        else newLoop ext buf fuel offset2 acc

/-- `ArchiveData::new`: open the reader (header check) and run the loop.
The fuel bound `buf.length + 1` exceeds the number of entries any run can
yield, since each returned entry advances the cursor by at least eight. -/
def ArchiveData.new (ext : ExtCodecs) (buf : List Nat) : NewResult :=
  match read_package_header buf 0 with
  | .error e => .err (.InvalidPackage e)
  | .ok offset => newLoop ext buf (buf.length + 1) offset ⟨[], []⟩

/-- `lowest_mc_id`: first value of the ordered masterchain index. -/
def ArchiveData.lowest_mc_id (a : ArchiveData) : Option BlockId :=
  a.mc_block_ids.head?.map (·.2)

/-- `highest_mc_id`: last value of the ordered masterchain index. -/
def ArchiveData.highest_mc_id (a : ArchiveData) : Option BlockId :=
  a.mc_block_ids.getLast?.map (·.2)

/-- `BTreeSet<u32>::insert`: sorted, duplicate-free insertion. -/
def insertSeqno (x : Nat) : List Nat → List Nat
  | [] => [x]
  | y :: t =>
    if x < y then x :: y :: t
    else if x = y then y :: t
    else y :: insertSeqno x t

/-- One step of the grouping loop: add a seqno to its shard's set, creating
the shard's entry on first encounter. -/
def addShardSeqno (m : List (ShardIdent × List Nat)) (s : ShardIdent)
    (x : Nat) : List (ShardIdent × List Nat) :=
  match m with
  | [] => [(s, [x])]
  | (k, v) :: t =>
    if k = s then (k, insertSeqno x v) :: t else (k, v) :: addShardSeqno t s x

/-- Grouping of all block ids by shard (the `HashMap<ShardIdent,
BTreeSet<u32>>` of `check`), shards listed in first-encounter order. -/
def groupShards (ids : List BlockId) : List (ShardIdent × List Nat) :=
  ids.foldl (fun m id => addShardSeqno m id.shard id.seqno) []

/-- `map.get(&shard)` followed by `ids.contains(&seqno)`. -/
def shardSetContains (map : List (ShardIdent × List Nat)) (s : ShardIdent)
    (x : Nat) : Bool :=
  match map.lookup s with
  | some ids => ids.contains x
  | none => false

/-- `contains_previous_block`: looks for the predecessor seqno in the two
children from `split()` and in the parent from `merge()`. -/
def contains_previous_block (map : List (ShardIdent × List Nat))
    (shard_ident : ShardIdent) (prev_seqno : Nat) : Bool :=
  (match shard_ident.split with
   | some (l, r) =>
     shardSetContains map l prev_seqno || shardSetContains map r prev_seqno
   | none => false) ||
  (match shard_ident.merge with
   | some parent => shardSetContains map parent prev_seqno
   | none => false)

/-- The inner walk of `check` over one shard's remaining seqnos, with `prev`
the last seqno seen.  `prev + 1` and `seqno - 1` are `u32` operations and
wrap modulo `2^32` (release semantics); with the sorted sets produced by
`groupShards` they never actually wrap. -/
def walkShard (map : List (ShardIdent × List Nat)) (s : ShardIdent) :
    Nat → List Nat → Except ArchiveDataError Unit
  | _, [] => .ok ()
  | prev, seqno :: rest =>
    if seqno ≠ (prev + 1) % 2 ^ 32 ∧
        contains_previous_block map s ((seqno + 2 ^ 32 - 1) % 2 ^ 32) = false
    then .error (.InconsistentShardchainBlock s seqno)
    else walkShard map s seqno rest

/-- The per-shard step of `check`: empty shards are skipped, the walk starts
from the lowest seqno. -/
def checkShardGroup (map : List (ShardIdent × List Nat)) (s : ShardIdent)
    (seqnos : List Nat) : Except ArchiveDataError Unit :=
  match seqnos with
  | [] => .ok ()
  | first :: rest => walkShard map s first rest

/-- Iteration of `check` over the shard groups: first failure wins. -/
def checkShardsAux (map : List (ShardIdent × List Nat)) :
    List (ShardIdent × List Nat) → Except ArchiveDataError Unit
  | [] => .ok ()
  | (s, seqnos) :: rest =>
    match checkShardGroup map s seqnos with
    | .error e => .error e
    | .ok _ => checkShardsAux map rest

/-- `ArchiveData::check`: masterchain contiguity first (`usize` arithmetic,
modelled with wrapping `add64`), then the shard-topology-aware shardchain
step. -/
def ArchiveData.check (a : ArchiveData) : Except ArchiveDataError Unit :=
  let mc_block_count := a.mc_block_ids.length
  match a.lowest_mc_id, a.highest_mc_id with
  | some left, some right =>
    if add64 left.seqno mc_block_count ≠ add64 right.seqno 1 then
      .error .InconsistentMasterchainBlocks
    else
      let map := groupShards (a.blocks.map Prod.fst)
      checkShardsAux map map
  | _, _ => .error .EmptyArchive

/-! ## Well-formedness predicates and concrete fixtures -/

/-- A valid block identifier: workchain in `i32` range, prefix accepted by
`ShardIdent.new`, seqno a `u32`, hashes of 32 bytes. -/
def ValidBlockId (id : BlockId) : Prop :=
  -(2 ^ 31) ≤ id.shard.workchain ∧ id.shard.workchain < 2 ^ 31 ∧
  id.shard.pfx < 2 ^ 64 ∧ id.shard.pfx ≠ 0 ∧ 2 ^ 3 ≤ shardLowBit id.shard.pfx ∧
  id.seqno < 2 ^ 32 ∧
  id.root_hash.length = 32 ∧ (∀ b ∈ id.root_hash, b < 256) ∧
  id.file_hash.length = 32 ∧ (∀ b ∈ id.file_hash, b < 256)

instance (id : BlockId) : Decidable (ValidBlockId id) :=
  inferInstanceAs (Decidable
    (-(2 ^ 31) ≤ id.shard.workchain ∧ id.shard.workchain < 2 ^ 31 ∧
     id.shard.pfx < 2 ^ 64 ∧ id.shard.pfx ≠ 0 ∧
     2 ^ 3 ≤ shardLowBit id.shard.pfx ∧ id.seqno < 2 ^ 32 ∧
     id.root_hash.length = 32 ∧ (∀ b ∈ id.root_hash, b < 256) ∧
     id.file_hash.length = 32 ∧ (∀ b ∈ id.file_hash, b < 256)))

/-- Well-formed masterchain index: strictly sorted `u32` keys, each value
stored under its own seqno (the invariant `ArchiveData::new` maintains). -/
def WFmc (m : List (Nat × BlockId)) : Prop :=
  List.Chain' (fun a b => a.1 < b.1) m ∧
  ∀ p ∈ m, p.1 < 2 ^ 32 ∧ p.2.seqno = p.1

instance (m : List (Nat × BlockId)) : Decidable (WFmc m) :=
  inferInstanceAs (Decidable
    (List.Chain' (fun a b : Nat × BlockId => a.1 < b.1) m ∧
     ∀ p ∈ m, p.1 < 2 ^ 32 ∧ p.2.seqno = p.1))

/-- 32 zero bytes. -/
def zeros32 : List Nat := List.replicate 32 0

/-- 32 bytes of `0xFF`. -/
def ff32 : List Nat := List.replicate 32 255

/-- The full masterchain shard. -/
def mcShard : ShardIdent := ⟨-1, 2 ^ 63⟩

/-- The full basechain shard. -/
def bcShard : ShardIdent := ⟨0, 2 ^ 63⟩

/-- All-zero-hash masterchain block id (boundary fixture). -/
def idZero : BlockId := ⟨mcShard, 0, zeros32, zeros32⟩

/-- All-FF-hash basechain block id (boundary fixture). -/
def idFF : BlockId := ⟨bcShard, 4294967295, ff32, ff32⟩

/-- Basechain block id in workchain 1 (fixture for the proof guard). -/
def idWc1 : BlockId := ⟨⟨1, 2 ^ 63⟩, 5, zeros32, zeros32⟩

/-- Basechain block id in workchain 0 (fixture for the proof guard). -/
def idWc0 : BlockId := ⟨⟨0, 2 ^ 63⟩, 5, zeros32, zeros32⟩

/-- Decoders that accept everything and name `idZero` (fixture). -/
def extZ : ExtCodecs :=
  { sha256 := fun _ => zeros32
    bocDecode := fun _ => some ⟨zeros32⟩
    blockLoad := fun _ => some ⟨0⟩
    proofLoad := fun _ => some ⟨idZero⟩ }

/-- Decoders whose proofs name `idWc1` (fixture). -/
def extP1 : ExtCodecs :=
  { sha256 := fun _ => zeros32
    bocDecode := fun _ => some ⟨zeros32⟩
    blockLoad := fun _ => none
    proofLoad := fun _ => some ⟨idWc1⟩ }

/-- Decoders whose proofs name `idWc0` (fixture). -/
def extP0 : ExtCodecs :=
  { sha256 := fun _ => zeros32
    bocDecode := fun _ => some ⟨zeros32⟩
    blockLoad := fun _ => none
    proofLoad := fun _ => some ⟨idWc0⟩ }

/-- Decoders that reject everything, with a fixed content hash (fixture). -/
def extNone : ExtCodecs :=
  { sha256 := fun _ => [1]
    bocDecode := fun _ => none
    blockLoad := fun _ => none
    proofLoad := fun _ => none }

/-- Encoded filename bytes of the `Block` entry for `idZero`. -/
def nameZBytes : List Nat := (PackageEntryId.filename (.Block idZero)).map Char.toNat

/-- A complete one-entry archive containing the `idZero` block with empty
data (fixture: header magic, entry magic, name length 159, data length 0). -/
def bufZ : List Nat :=
  archiveMagicBytes ++ entryMagicBytes ++
    [nameZBytes.length % 256, nameZBytes.length / 256] ++ [0, 0, 0, 0] ++ nameZBytes

/-- The store assembled from `bufZ` (fixture). -/
def storeZ : ArchiveData := ⟨[(0, idZero)], [(idZero, ⟨some (⟨0⟩, []), none⟩)]⟩

/-- Masterchain block id with seqno 10 (fixture). -/
def idM10 : BlockId := ⟨mcShard, 10, zeros32, zeros32⟩

/-- Masterchain block id with seqno 13 (fixture). -/
def idM13 : BlockId := ⟨mcShard, 13, zeros32, zeros32⟩

/-- A store whose masterchain index has a gap: seqnos 10 and 13 (fixture). -/
def storeGap : ArchiveData := ⟨[(10, idM10), (13, idM13)], []⟩

/-- The `parse_block_id` input with a valid-hex 1-byte root hash (fixture
for the unwrap panic). -/
def shortHashInput : List Char :=
  ['(', '0', ',', '8', '0', '0', '0', '0', '0', '0', '0', '0', '0', '0', '0',
   '0', '0', '0', '0', ',', '1', ')', ':', 'A', 'B', ':', 'C', 'D']

/-! ## Shared helper lemmas -/

theorem add64_eq_of_lt {a b : Nat} (h : a + b < 2 ^ 64) : add64 a b = a + b :=
  Nat.mod_eq_of_lt h

theorem sliceV_eq_some {buf : List Nat} {a b : Nat} (h1 : a ≤ b)
    (h2 : b ≤ buf.length) :
    sliceV buf a b = some ((buf.drop a).take (b - a)) := by
  unfold sliceV
  rw [if_pos ⟨h1, h2⟩]

theorem getV_eq_some {buf : List Nat} {i : Nat} (h : i < buf.length) :
    getV buf i = some buf[i] := by
  unfold getV
  rw [if_pos h, List.getElem?_eq_getElem h]

/-! ## Claim C5: wrong-length hash makes `parse_block_id` panic -/

/-- C5: the claim states that a root-hash or file-hash component that is
valid hex but not exactly 64 hex digits is reported as the corresponding
Invalid error value, never a panic.  On the input
`(0,8000000000000000,1):AB:CD` the source instead reaches
`root_hash.try_into().unwrap()` with a 1-byte vector and panics; the same
panic surfaces through `from_filename` for the full filename. -/
theorem c5_short_hash_panics :
    parse_block_id shortHashInput = .panicked ∧
    from_filename (entryTagBlock ++ shortHashInput) = .panicked ∧
    parse_block_id shortHashInput ≠ .err .InvalidRootHash := by
  refine ⟨rfl, rfl, by decide⟩

/-! ## Claim C6: the masterchain-proof guard is miscompiled by precedence -/

/-- C6: the claim states that for every non-masterchain id (workchain not
`-1`) a full proof (`is_link = false`) naming that id fails with
`ProofForNonMasterchainBlock`.  The source condition
`!workchain() == -1 && !is_link` bitwise-negates the workchain, so it only
fires for workchain `0`: a well-formed full proof for a workchain-1 block is
accepted, while the workchain-0 case errors and a proof naming another block
still fails with `ProofForAnotherBlock`. -/
theorem c6_nonmasterchain_guard_bug :
    deserialize_block_proof extP1 idWc1 [] false = .ok ⟨idWc1⟩ ∧
    deserialize_block_proof extP0 idWc0 [] false =
      .error .ProofForNonMasterchainBlock ∧
    deserialize_block_proof extP1 idWc0 [] false =
      .error .ProofForAnotherBlock := by
  refine ⟨rfl, rfl, rfl⟩

/-! ## Claim C4: offset arithmetic in the container reader -/

/-- C4 counterexample: the claim states every addition of a declared length
to the cursor is guarded so that an overflowing computation is reported as
`UnexpectedEof`/`UnexpectedEntryEof`, never a wrapped offset or a panic.
At cursor `2^64 - 4` on a 10-byte buffer, `read_from_view` wraps
`offset + 8` to `4`, passes the length check, and panics indexing
`buf[offset..offset + 2]`. -/
theorem c4_counterexample_wrapped_offset_panics :
    read_from_view (List.replicate 10 0) (2 ^ 64 - 4) = .panicked ∧
    read_from_view (List.replicate 10 0) (2 ^ 64 - 4) ≠ .ok none ∧
    read_from_view (List.replicate 10 0) (2 ^ 64 - 4) ≠
      .err .UnexpectedEntryEof ∧
    read_from_view (List.replicate 10 0) (2 ^ 64 - 4) ≠
      .err .UnexpectedArchiveEof := by
  refine ⟨rfl, by decide, by decide, by decide⟩

/-- C4 amended: `read_package_header` does guard its addition (a wrapped
`end + 4` is reported as `UnexpectedArchiveEof`), and in `read_from_view`
no addition can wrap for the states reachable through the reader — a byte
buffer (so the declared lengths are at most `u16`/`u32` sized) with the
cursor within the buffer and the buffer no longer than `isize::MAX` — so
every out-of-range condition is reported as no-more-entries or
`UnexpectedEntryEof`, never as a panic or a wrapped offset. -/
theorem c4_amended_no_overflow_for_reachable_states :
    ∀ (buf : List Nat) (offset : Nat),
      ((∀ b ∈ buf, b < 256) → offset ≤ buf.length → buf.length ≤ 2 ^ 63 →
        read_from_view buf offset ≠ .panicked) ∧
      (offset < 2 ^ 64 → 2 ^ 64 ≤ offset + 4 →
        read_package_header buf offset = .error .UnexpectedArchiveEof) := by
  intro buf offset
  constructor
  · intro hbytes hoff hlen
    have hgv : ∀ i, i < buf.length → ∃ v, getV buf i = some v ∧ v < 256 := by
      intro i hi
      exact ⟨buf[i], getV_eq_some hi, hbytes _ (List.getElem_mem _)⟩
    unfold read_from_view
    split
    · simp
    next h8 =>
      rw [add64_eq_of_lt (show offset + 8 < 2 ^ 64 by omega)] at h8
      have h8le : offset + 8 ≤ buf.length := by omega
      rw [add64_eq_of_lt (show offset + 2 < 2 ^ 64 by omega),
        add64_eq_of_lt (show offset + 3 < 2 ^ 64 by omega),
        add64_eq_of_lt (show offset + 4 < 2 ^ 64 by omega),
        add64_eq_of_lt (show offset + 5 < 2 ^ 64 by omega),
        add64_eq_of_lt (show offset + 6 < 2 ^ 64 by omega),
        add64_eq_of_lt (show offset + 7 < 2 ^ 64 by omega),
        add64_eq_of_lt (show offset + 8 < 2 ^ 64 by omega),
        sliceV_eq_some (show offset ≤ offset + 2 by omega) (by omega)]
      split
      next heqn => exact absurd heqn (by simp)
      next magic hmagic =>
        split
        · simp
        next hmagicEq =>
          obtain ⟨v2, hg2, hb2⟩ := hgv (offset + 2) (by omega)
          obtain ⟨v3, hg3, hb3⟩ := hgv (offset + 3) (by omega)
          split
          next a0 a1 ha0 ha1 =>
            rw [hg2] at ha0
            rw [hg3] at ha1
            cases ha0
            cases ha1
            obtain ⟨v4, hg4, hb4⟩ := hgv (offset + 4) (by omega)
            obtain ⟨v5, hg5, hb5⟩ := hgv (offset + 5) (by omega)
            obtain ⟨v6, hg6, hb6⟩ := hgv (offset + 6) (by omega)
            obtain ⟨v7, hg7, hb7⟩ := hgv (offset + 7) (by omega)
            split
            next c0 c1 c2 c3 hc0 hc1 hc2 hc3 =>
              rw [hg4] at hc0
              rw [hg5] at hc1
              rw [hg6] at hc2
              rw [hg7] at hc3
              cases hc0
              cases hc1
              cases hc2
              cases hc3
              rw [add64_eq_of_lt
                  (show offset + 8 + (v2 + 256 * v3) < 2 ^ 64 by omega),
                add64_eq_of_lt (show offset + 8 + (v2 + 256 * v3) +
                  (v4 + 256 * v5 + 65536 * v6 + 16777216 * v7) < 2 ^ 64 by
                    omega)]
              split
              · simp
              next hlen2 =>
                rw [sliceV_eq_some (by omega) (by omega)]
                split
                next heqn => exact absurd heqn (by simp)
                next nameBytes hname =>
                  split
                  · simp
                  next name huname =>
                    rw [sliceV_eq_some (by omega) (by omega)]
                    simp
            next hno =>
              exact (hno _ _ _ _ hg4 hg5 hg6 hg7).elim
          next hno =>
            exact (hno _ _ hg2 hg3).elim
  · intro hlt hge
    unfold read_package_header
    rw [if_pos (Or.inr (by unfold add64; omega))]

/-- C4 witness: the amended theorem applied at an in-range cursor on a
two-byte buffer (no entry header fits, no panic) and at a wrapping cursor
for the header reader. -/
theorem c4_amended_no_overflow_for_reachable_states_witness :
    read_from_view [7, 7] 0 ≠ .panicked ∧
    read_package_header [7, 7] (2 ^ 64 - 2) = .error .UnexpectedArchiveEof :=
  ⟨(c4_amended_no_overflow_for_reachable_states [7, 7] 0).1 (by decide)
      (by decide) (by decide),
   (c4_amended_no_overflow_for_reachable_states [7, 7] (2 ^ 64 - 2)).2
      (by norm_num) (by norm_num)⟩

/-! ## Claim C7: `deserialize_block` verification order -/

/-- C7: for every decoder instantiation, identifier and byte slice,
`deserialize_block` fails with `InvalidFileHash` whenever the content hash
of the bytes differs from the identifier's file hash (and never succeeds
with wrong content); with a matching file hash it fails with
`InvalidBlockData` when the payload does not decode and with
`InvalidRootHash` when the decoded root's representation hash differs from
the identifier's root hash. -/
theorem c7_deserialize_block_hash_checks :
    ∀ (ext : ExtCodecs) (id : BlockId) (data : List Nat),
      (ext.sha256 data ≠ id.file_hash →
        deserialize_block ext id data = .error .InvalidFileHash) ∧
      (∀ b, deserialize_block ext id data = .ok b →
        ext.sha256 data = id.file_hash) ∧
      (ext.sha256 data = id.file_hash → ext.bocDecode data = none →
        deserialize_block ext id data = .error .InvalidBlockData) ∧
      (∀ root, ext.sha256 data = id.file_hash →
        ext.bocDecode data = some root → root.repr_hash ≠ id.root_hash →
        deserialize_block ext id data = .error .InvalidRootHash) := by
  intro ext id data
  refine ⟨?_, ?_, ?_, ?_⟩
  · intro hne
    unfold deserialize_block
    rw [if_pos (fun he => hne he.symm)]
  · intro b hb
    by_contra hne
    unfold deserialize_block at hb
    rw [if_pos (fun he => hne he.symm)] at hb
    simp at hb
  · intro hsha hboc
    unfold deserialize_block
    rw [if_neg (not_not_intro hsha.symm)]
    simp only [hboc]
  · intro root hsha hboc hroot
    unfold deserialize_block
    rw [if_neg (not_not_intro hsha.symm)]
    simp only [hboc]
    rw [if_pos (fun he => hroot he.symm)]

/-- C7 witness: the theorem applied to the rejecting decoders, whose
constant content hash differs from the id's file hash. -/
theorem c7_deserialize_block_hash_checks_witness :
    deserialize_block extNone idZero [] = .error .InvalidFileHash :=
  (c7_deserialize_block_hash_checks extNone idZero []).1 (by decide)

/-! ## Claim C10: `ProofForNonMasterchainBlock` is unreachable from `new` -/

theorem dbp_mc_call_no_pfnmb (ext : ExtCodecs) (id : BlockId)
    (data : List Nat) (h : id.shard.workchain = -1) :
    deserialize_block_proof ext id data false ≠
      .error .ProofForNonMasterchainBlock := by
  intro hcontra
  unfold deserialize_block_proof at hcontra
  split at hcontra
  · simp at hcontra
  · split at hcontra
    · simp at hcontra
    · split at hcontra
      · simp at hcontra
      · split at hcontra
        next hcond =>
          rw [h] at hcond
          simp [i32BitNot] at hcond
        next => simp at hcontra

theorem dbp_link_call_no_pfnmb (ext : ExtCodecs) (id : BlockId)
    (data : List Nat) :
    deserialize_block_proof ext id data true ≠
      .error .ProofForNonMasterchainBlock := by
  intro hcontra
  unfold deserialize_block_proof at hcontra
  split at hcontra
  · simp at hcontra
  · split at hcontra
    · simp at hcontra
    · split at hcontra
      · simp at hcontra
      · split at hcontra
        next hcond => simp at hcond
        next => simp at hcontra

theorem deserialize_block_no_pfnmb (ext : ExtCodecs) (id : BlockId)
    (data : List Nat) :
    deserialize_block ext id data ≠ .error .ProofForNonMasterchainBlock := by
  intro hcontra
  unfold deserialize_block at hcontra
  repeat' split at hcontra
  all_goals simp at hcontra

theorem newLoop_no_pfnmb (ext : ExtCodecs) (buf : List Nat) :
    ∀ (fuel offset : Nat) (acc : ArchiveData),
      newLoop ext buf fuel offset acc ≠ .err .ProofForNonMasterchainBlock := by
  intro fuel
  induction fuel with
  | zero =>
    intro offset acc hcontra
    simp [newLoop] at hcontra
  | succ n ih =>
    intro offset acc hcontra
    unfold newLoop at hcontra
    split at hcontra
    next => simp at hcontra
    next => simp at hcontra
    next => simp at hcontra
    next name data offset2 =>
      split at hcontra
      next => simp at hcontra
      next => simp at hcontra
      next id hff =>
        split at hcontra
        next e3 heq =>
          injection hcontra with h
          rw [h] at heq
          exact deserialize_block_no_pfnmb ext id _ heq
        next block heq => exact ih _ _ hcontra
      next id hff =>
        split at hcontra
        next hwc =>
          split at hcontra
          next e3 heq =>
            injection hcontra with h
            rw [h] at heq
            exact dbp_mc_call_no_pfnmb ext id _ hwc heq
          next proof heq => exact ih _ _ hcontra
        next hwc => exact ih _ _ hcontra
      next id hff =>
        split at hcontra
        next hwc =>
          split at hcontra
          next e3 heq =>
            injection hcontra with h
            rw [h] at heq
            exact dbp_link_call_no_pfnmb ext id _ heq
          next proof heq => exact ih _ _ hcontra
        next hwc => exact ih _ _ hcontra

/-- C10: `ArchiveData::new` never returns `ProofForNonMasterchainBlock`:
the `Proof` branch is entered only for masterchain identifiers with
`is_link = false`, the `ProofLink` branch only for non-masterchain
identifiers with `is_link = true`, and under each of these call patterns
the rejection branch inside `deserialize_block_proof` is unreachable. -/
theorem c10_new_never_pfnmb :
    ∀ (ext : ExtCodecs) (buf data : List Nat) (id : BlockId),
      (id.shard.workchain = -1 →
        deserialize_block_proof ext id data false ≠
          .error .ProofForNonMasterchainBlock) ∧
      (id.shard.workchain ≠ -1 →
        deserialize_block_proof ext id data true ≠
          .error .ProofForNonMasterchainBlock) ∧
      ArchiveData.new ext buf ≠ .err .ProofForNonMasterchainBlock := by
  intro ext buf data id
  refine ⟨fun h => dbp_mc_call_no_pfnmb ext id data h,
    fun _ => dbp_link_call_no_pfnmb ext id data, ?_⟩
  unfold ArchiveData.new
  cases read_package_header buf 0 with
  | error e => simp
  | ok offset => exact newLoop_no_pfnmb ext buf _ offset _

/-- C10 witness: the theorem applied to the accepting decoders on the
masterchain fixture and on a concrete empty-archive buffer. -/
theorem c10_new_never_pfnmb_witness :
    deserialize_block_proof extZ idZero [] false ≠
      .error .ProofForNonMasterchainBlock :=
  (c10_new_never_pfnmb extZ archiveMagicBytes [] idZero).1 (by decide)

/-! ## Claim C8: entry boundaries of the container reader -/

theorem getV_append (pre X : List Nat) (k : Nat) :
    getV (pre ++ X) (pre.length + k) = getV X k := by
  unfold getV
  by_cases h : k < X.length
  · rw [if_pos (by simp only [List.length_append]; omega), if_pos h,
      List.getElem?_append_right (by omega)]
    congr 1
    omega
  · rw [if_neg (by simp only [List.length_append]; omega), if_neg h]

/-- C8: with fewer than 8 bytes left before a would-be entry header,
`read_from_view` ends the sequence cleanly with no more entries; with a
readable, valid entry header whose declared filename plus data length
exceeds the remaining buffer, it fails with `UnexpectedEntryEof`. -/
theorem c8_entry_header_boundaries :
    ∀ (buf pre tail : List Nat) (offset fsLo fsHi d0 d1 d2 d3 : Nat),
      (offset ≤ buf.length → buf.length < offset + 8 → buf.length ≤ 2 ^ 63 →
        read_from_view buf offset = .ok none) ∧
      (buf = pre ++ 0x8b :: 0x1e :: fsLo :: fsHi :: d0 :: d1 :: d2 :: d3 :: tail →
        offset = pre.length →
        fsLo < 256 → fsHi < 256 → d0 < 256 → d1 < 256 → d2 < 256 → d3 < 256 →
        buf.length ≤ 2 ^ 63 →
        tail.length <
          fsLo + 256 * fsHi + (d0 + 256 * d1 + 65536 * d2 + 16777216 * d3) →
        read_from_view buf offset = .err .UnexpectedEntryEof) := by
  intro buf pre tail offset fsLo fsHi d0 d1 d2 d3
  constructor
  · intro hoff hlt hlen
    unfold read_from_view
    rw [add64_eq_of_lt (show offset + 8 < 2 ^ 64 by omega), if_pos hlt]
  · intro hbuf hoff hb0 hb1 hb2 hb3 hb4 hb5 hlen hlt
    subst hbuf
    subst hoff
    have hlen2 : (pre ++ 0x8b :: 0x1e :: fsLo :: fsHi :: d0 :: d1 :: d2 ::
        d3 :: tail).length = pre.length + (8 + tail.length) := by
      simp only [List.length_append, List.length_cons]
      omega
    have hpre : pre.length ≤ 2 ^ 63 := by omega
    have hg2 : getV (pre ++ 0x8b :: 0x1e :: fsLo :: fsHi :: d0 :: d1 :: d2 ::
        d3 :: tail) (pre.length + 2) = some fsLo := by
      rw [getV_append]
      unfold getV
      rw [if_pos (by simp only [List.length_cons]; omega)]
      simp
    have hg3 : getV (pre ++ 0x8b :: 0x1e :: fsLo :: fsHi :: d0 :: d1 :: d2 ::
        d3 :: tail) (pre.length + 3) = some fsHi := by
      rw [getV_append]
      unfold getV
      rw [if_pos (by simp only [List.length_cons]; omega)]
      simp
    have hg4 : getV (pre ++ 0x8b :: 0x1e :: fsLo :: fsHi :: d0 :: d1 :: d2 ::
        d3 :: tail) (pre.length + 4) = some d0 := by
      rw [getV_append]
      unfold getV
      rw [if_pos (by simp only [List.length_cons]; omega)]
      simp
    have hg5 : getV (pre ++ 0x8b :: 0x1e :: fsLo :: fsHi :: d0 :: d1 :: d2 ::
        d3 :: tail) (pre.length + 5) = some d1 := by
      rw [getV_append]
      unfold getV
      rw [if_pos (by simp only [List.length_cons]; omega)]
      simp
    have hg6 : getV (pre ++ 0x8b :: 0x1e :: fsLo :: fsHi :: d0 :: d1 :: d2 ::
        d3 :: tail) (pre.length + 6) = some d2 := by
      rw [getV_append]
      unfold getV
      rw [if_pos (by simp only [List.length_cons]; omega)]
      simp
    have hg7 : getV (pre ++ 0x8b :: 0x1e :: fsLo :: fsHi :: d0 :: d1 :: d2 ::
        d3 :: tail) (pre.length + 7) = some d3 := by
      rw [getV_append]
      unfold getV
      rw [if_pos (by simp only [List.length_cons]; omega)]
      simp
    unfold read_from_view
    rw [add64_eq_of_lt (show pre.length + 8 < 2 ^ 64 by omega),
      add64_eq_of_lt (show pre.length + 2 < 2 ^ 64 by omega),
      add64_eq_of_lt (show pre.length + 3 < 2 ^ 64 by omega),
      add64_eq_of_lt (show pre.length + 4 < 2 ^ 64 by omega),
      add64_eq_of_lt (show pre.length + 5 < 2 ^ 64 by omega),
      add64_eq_of_lt (show pre.length + 6 < 2 ^ 64 by omega),
      add64_eq_of_lt (show pre.length + 7 < 2 ^ 64 by omega),
      if_neg (by omega)]
    rw [sliceV_eq_some (by omega) (by rw [hlen2]; omega)]
    split
    next heqn =>
      rw [Nat.add_sub_cancel_left, List.drop_left] at heqn
      exact absurd heqn (by simp)
    next magic hmagic =>
      rw [Nat.add_sub_cancel_left, List.drop_left] at hmagic
      have hmagicv : magic = entryMagicBytes := by
        cases hmagic
        rfl
      rw [if_neg (not_not_intro hmagicv)]
      split
      next a0 a1 ha0 ha1 =>
        rw [hg2] at ha0
        rw [hg3] at ha1
        cases ha0
        cases ha1
        split
        next c0 c1 c2 c3 hc0 hc1 hc2 hc3 =>
          rw [hg4] at hc0
          rw [hg5] at hc1
          rw [hg6] at hc2
          rw [hg7] at hc3
          cases hc0
          cases hc1
          cases hc2
          cases hc3
          rw [add64_eq_of_lt (show pre.length + 8 + (fsLo + 256 * fsHi) <
              2 ^ 64 by omega),
            add64_eq_of_lt (show pre.length + 8 + (fsLo + 256 * fsHi) +
              (d0 + 256 * d1 + 65536 * d2 + 16777216 * d3) < 2 ^ 64 by omega),
            if_pos (by rw [hlen2]; omega)]
        next hno =>
          exact (hno _ _ _ _ hg4 hg5 hg6 hg7).elim
      next hno =>
        exact (hno _ _ hg2 hg3).elim

/-- C8 witness: the theorem applied to a concrete empty buffer tail (clean
end of sequence) and to a concrete entry header declaring 5 bytes with none
remaining. -/
theorem c8_entry_header_boundaries_witness :
    read_from_view [1, 2, 3] 0 = .ok none ∧
    read_from_view [0x8b, 0x1e, 5, 0, 0, 0, 0, 0] 0 =
      .err .UnexpectedEntryEof :=
  ⟨(c8_entry_header_boundaries [1, 2, 3] [] [] 0 0 0 0 0 0 0).1 (by decide)
      (by decide) (by decide),
   (c8_entry_header_boundaries [0x8b, 0x1e, 5, 0, 0, 0, 0, 0] [] [] 0 5 0 0
      0 0 0).2 rfl rfl (by decide) (by decide) (by decide) (by decide)
      (by decide) (by decide) (by decide) (by decide)⟩

/-! ## Claim C2: masterchain contiguity step of `check` -/

theorem walkShard_error_shape (map : List (ShardIdent × List Nat))
    (s : ShardIdent) :
    ∀ (l : List Nat) (prev : Nat) (e : ArchiveDataError),
      walkShard map s prev l = .error e →
      ∃ n, e = .InconsistentShardchainBlock s n := by
  intro l
  induction l with
  | nil =>
    intro prev e h
    simp [walkShard] at h
  | cons seqno rest ih =>
    intro prev e h
    unfold walkShard at h
    split at h
    · exact ⟨seqno, (Except.error.inj h).symm⟩
    · exact ih seqno e h

theorem checkShardGroup_error_shape (map : List (ShardIdent × List Nat))
    (s : ShardIdent) (seqnos : List Nat) (e : ArchiveDataError)
    (h : checkShardGroup map s seqnos = .error e) :
    ∃ n, e = .InconsistentShardchainBlock s n := by
  unfold checkShardGroup at h
  split at h
  · simp at h
  · exact walkShard_error_shape map s _ _ e h

theorem checkShardsAux_error_shape (map : List (ShardIdent × List Nat)) :
    ∀ (entries : List (ShardIdent × List Nat)) (e : ArchiveDataError),
      checkShardsAux map entries = .error e →
      ∃ sh n, e = .InconsistentShardchainBlock sh n := by
  intro entries
  induction entries with
  | nil =>
    intro e h
    simp [checkShardsAux] at h
  | cons p rest ih =>
    intro e h
    unfold checkShardsAux at h
    split at h
    next e2 hgroup =>
      obtain ⟨n, hn⟩ := checkShardGroup_error_shape map p.1 p.2 e2 hgroup
      exact ⟨p.1, n, (Except.error.inj h).symm.trans hn⟩
    next => exact ih e h

theorem chainLt_head_le_getLast (t : List (Nat × BlockId))
    (x : Nat × BlockId)
    (hc : List.Chain' (fun a b => a.1 < b.1) (x :: t)) :
    x.1 ≤ ((x :: t).getLast (List.cons_ne_nil x t)).1 := by
  have htrans : IsTrans (Nat × BlockId) (fun a b => a.1 < b.1) :=
    ⟨fun a b c h1 h2 => lt_trans h1 h2⟩
  have hpw := (@List.chain'_iff_pairwise _ _ htrans _).mp hc
  have hq := List.getLast_mem (List.cons_ne_nil x t)
  rcases List.mem_cons.mp hq with h | h
  · exact (congrArg Prod.fst h).ge
  · exact le_of_lt ((List.pairwise_cons.mp hpw).1 _ h)

theorem chainLt_length_le (m : List (Nat × BlockId))
    (hs : List.Chain' (fun a b => a.1 < b.1) m)
    (hb : ∀ p ∈ m, p.1 < 2 ^ 32) : m.length ≤ 2 ^ 32 := by
  have hkeys : (m.map (·.1)).Chain' (· < ·) :=
    (List.chain'_map (fun p : Nat × BlockId => p.1)).mpr hs
  have hpw : (m.map (·.1)).Pairwise (· < ·) :=
    List.chain'_iff_pairwise.mp hkeys
  have hnd : (m.map (·.1)).Nodup := hpw.imp Nat.ne_of_lt
  have hsub : (m.map (·.1)).toFinset ⊆ Finset.range (2 ^ 32) := by
    intro x hx
    rw [List.mem_toFinset] at hx
    obtain ⟨p, hp, hpx⟩ := List.mem_map.mp hx
    rw [Finset.mem_range]
    exact hpx ▸ hb p hp
  have hcard := Finset.card_le_card hsub
  rw [List.toFinset_card_of_nodup hnd, Finset.card_range,
    List.length_map] at hcard
  exact hcard

/-- C2: `check` fails with `EmptyArchive` exactly when the masterchain
index is empty; otherwise, with `lo` and `hi` the seqnos of the lowest and
highest masterchain ids, both `usize` additions of the range comparison are
overflow-free, and `check` fails with `InconsistentMasterchainBlocks`
exactly when the entry count differs from `hi - lo + 1` — in particular a
count mismatch is reported before any shardchain checking. -/
theorem c2_masterchain_contiguity :
    ∀ (a : ArchiveData), WFmc a.mc_block_ids →
      ((a.check = .error .EmptyArchive ↔ a.mc_block_ids = []) ∧
       (∀ lo hi, a.lowest_mc_id.map (·.seqno) = some lo →
          a.highest_mc_id.map (·.seqno) = some hi →
          (add64 lo a.mc_block_ids.length = lo + a.mc_block_ids.length ∧
           add64 hi 1 = hi + 1) ∧
          (a.check = .error .InconsistentMasterchainBlocks ↔
            a.mc_block_ids.length ≠ hi + 1 - lo))) := by
  intro a hwf
  obtain ⟨hsort, hvals⟩ := hwf
  cases hm : a.mc_block_ids with
  | nil =>
    have hcheck : a.check = .error .EmptyArchive := by
      unfold ArchiveData.check ArchiveData.lowest_mc_id
      rw [hm]
      rfl
    refine ⟨⟨fun _ => rfl, fun _ => hcheck⟩, ?_⟩
    intro lo hi hlo hhi
    unfold ArchiveData.lowest_mc_id at hlo
    rw [hm] at hlo
    simp at hlo
  | cons x t =>
    rw [hm] at hsort hvals
    have hxmem : x ∈ x :: t := List.mem_cons_self x t
    set q := (x :: t).getLast (List.cons_ne_nil x t) with hq
    have hqmem : q ∈ x :: t := List.getLast_mem (List.cons_ne_nil x t)
    have hlast : (x :: t).getLast? = some q :=
      List.getLast?_eq_getLast_of_ne_nil (List.cons_ne_nil x t)
    have hl : a.lowest_mc_id = some x.2 := by
      unfold ArchiveData.lowest_mc_id
      rw [hm]
      rfl
    have hh : a.highest_mc_id = some q.2 := by
      unfold ArchiveData.highest_mc_id
      rw [hm, hlast]
      rfl
    have hxval := hvals x hxmem
    have hqval := hvals q hqmem
    have hle : x.1 ≤ q.1 := chainLt_head_le_getLast t x hsort
    have hcount : (x :: t).length ≤ 2 ^ 32 :=
      chainLt_length_le (x :: t) hsort (fun p hp => (hvals p hp).1)
    have hcheck : a.check =
        (if add64 x.2.seqno a.mc_block_ids.length ≠ add64 q.2.seqno 1 then
          .error .InconsistentMasterchainBlocks
        else
          checkShardsAux (groupShards (a.blocks.map Prod.fst))
            (groupShards (a.blocks.map Prod.fst))) := by
      unfold ArchiveData.check
      rw [hl, hh]
    constructor
    · constructor
      · intro hce
        rw [hcheck] at hce
        split at hce
        all_goals
          first
          | exact absurd hce (by simp)
          | (obtain ⟨sh, n, hn⟩ := checkShardsAux_error_shape _ _ _ hce
             simp at hn)
      · intro hnil
        exact absurd hnil (List.cons_ne_nil x t)
    · intro lo hi hlo hhi
      rw [hl] at hlo
      rw [hh] at hhi
      simp only [Option.map_some'] at hlo hhi
      have hlo2 : lo = x.1 := by
        rw [← (Option.some.inj hlo), hxval.2]
      have hhi2 : hi = q.1 := by
        rw [← (Option.some.inj hhi), hqval.2]
      subst hlo2
      subst hhi2
      refine ⟨⟨add64_eq_of_lt (by omega), add64_eq_of_lt (by omega)⟩, ?_⟩
      rw [hcheck, hm]
      rw [hxval.2, hqval.2]
      rw [show add64 x.1 (x :: t).length = x.1 + (x :: t).length from
          add64_eq_of_lt (by omega),
        show add64 q.1 1 = q.1 + 1 from add64_eq_of_lt (by omega)]
      by_cases hcnt : (x :: t).length = q.1 + 1 - x.1
      · rw [if_neg (by omega)]
        constructor
        · intro hce
          obtain ⟨sh, n, hn⟩ := checkShardsAux_error_shape _ _ _ hce
          simp at hn
        · intro hcnt2
          exact absurd hcnt hcnt2
      · rw [if_pos (by omega)]
        exact ⟨fun _ => by omega, fun _ => rfl⟩

/-- C2 witness: the theorem applied at the empty store and at the concrete
store whose masterchain seqnos are 10 and 13 (two entries cannot span the
range 10..13). -/
theorem c2_masterchain_contiguity_witness :
    ArchiveData.check ⟨[], []⟩ = .error .EmptyArchive ∧
    storeGap.check = .error .InconsistentMasterchainBlocks :=
  ⟨((c2_masterchain_contiguity ⟨[], []⟩ (by decide)).1).mpr rfl,
   (((c2_masterchain_contiguity storeGap
       ⟨List.chain'_pair.mpr (by decide), by decide⟩).2 10 13 rfl rfl).2).mpr
     (by decide)⟩

/-! ## Claim C1: shard-topology-aware shardchain step -/

theorem walkShard_ok_iff (map : List (ShardIdent × List Nat))
    (s : ShardIdent) :
    ∀ (l : List Nat) (prev : Nat),
      List.Chain' (· < ·) (prev :: l) → (∀ x ∈ l, x < 2 ^ 32) →
      (walkShard map s prev l = .ok () ↔
        ∀ pr nx, (pr, nx) ∈ (prev :: l).zip l →
          nx = pr + 1 ∨ contains_previous_block map s (nx - 1) = true) := by
  intro l
  induction l with
  | nil =>
    intro prev hc hb
    simp [walkShard]
  | cons x rest ih =>
    intro prev hc hb
    have hcc := List.chain'_cons.mp hc
    have hpx : prev < x := hcc.1
    have hx32 : x < 2 ^ 32 := hb x (List.mem_cons_self x rest)
    unfold walkShard
    rw [show (prev + 1) % 2 ^ 32 = prev + 1 from Nat.mod_eq_of_lt (by omega),
      show (x + 2 ^ 32 - 1) % 2 ^ 32 = x - 1 by omega]
    by_cases hgap : x ≠ prev + 1 ∧
        contains_previous_block map s (x - 1) = false
    · rw [if_pos hgap]
      constructor
      · intro h
        simp at h
      · intro hR
        have := hR prev x
          (by rw [List.zip_cons_cons]; exact List.mem_cons_self _ _)
        rcases this with h | h
        · exact absurd h hgap.1
        · exact absurd (hgap.2.symm.trans h) (by simp)
    · rw [if_neg hgap]
      rw [ih x hcc.2 (fun y hy => hb y (List.mem_cons_of_mem _ hy))]
      have hnot := not_and_or.mp hgap
      constructor
      · intro hAll pr nx hmem
        rw [List.zip_cons_cons] at hmem
        rcases List.mem_cons.mp hmem with heq | hmem2
        · cases heq
          rcases hnot with h | h
          · exact Or.inl (not_not.mp h)
          · cases hcb : contains_previous_block map s (x - 1) with
            | false => exact absurd hcb h
            | true => exact Or.inr rfl
        · exact hAll pr nx hmem2
      · intro hAll pr nx hmem
        exact hAll pr nx
          (by rw [List.zip_cons_cons]; exact List.mem_cons_of_mem _ hmem)

theorem walkShard_error_pair (map : List (ShardIdent × List Nat))
    (s : ShardIdent) :
    ∀ (l : List Nat) (prev : Nat) (e : ArchiveDataError),
      List.Chain' (· < ·) (prev :: l) → (∀ x ∈ l, x < 2 ^ 32) →
      walkShard map s prev l = .error e →
      ∃ pr nx, (pr, nx) ∈ (prev :: l).zip l ∧ nx ≠ pr + 1 ∧
        contains_previous_block map s (nx - 1) = false ∧
        e = .InconsistentShardchainBlock s nx := by
  intro l
  induction l with
  | nil =>
    intro prev e hc hb h
    simp [walkShard] at h
  | cons x rest ih =>
    intro prev e hc hb h
    have hcc := List.chain'_cons.mp hc
    have hpx : prev < x := hcc.1
    have hx32 : x < 2 ^ 32 := hb x (List.mem_cons_self x rest)
    unfold walkShard at h
    rw [show (prev + 1) % 2 ^ 32 = prev + 1 from Nat.mod_eq_of_lt (by omega),
      show (x + 2 ^ 32 - 1) % 2 ^ 32 = x - 1 by omega] at h
    split at h
    next hgap =>
      refine ⟨prev, x,
        by rw [List.zip_cons_cons]; exact List.mem_cons_self _ _,
        hgap.1, hgap.2, (Except.error.inj h).symm⟩
    next =>
      obtain ⟨pr, nx, hmem, hne, hcf, he⟩ :=
        ih x e hcc.2 (fun y hy => hb y (List.mem_cons_of_mem _ hy)) h
      exact ⟨pr, nx,
        by rw [List.zip_cons_cons]; exact List.mem_cons_of_mem _ hmem,
        hne, hcf, he⟩

theorem checkShardsAux_error_mem (map : List (ShardIdent × List Nat)) :
    ∀ (entries : List (ShardIdent × List Nat)) (e : ArchiveDataError),
      checkShardsAux map entries = .error e →
      ∃ sh seqs, (sh, seqs) ∈ entries ∧
        checkShardGroup map sh seqs = .error e := by
  intro entries
  induction entries with
  | nil =>
    intro e h
    simp [checkShardsAux] at h
  | cons p rest ih =>
    intro e h
    unfold checkShardsAux at h
    split at h
    next e2 hgroup =>
      refine ⟨p.1, p.2, List.mem_cons_self p rest, ?_⟩
      rw [hgroup, Except.error.inj h]
    next =>
      obtain ⟨sh, seqs, hmem, hg⟩ := ih e h
      exact ⟨sh, seqs, List.mem_cons_of_mem p hmem, hg⟩

theorem checkShardsAux_ok_of_all (map : List (ShardIdent × List Nat)) :
    ∀ (entries : List (ShardIdent × List Nat)),
      (∀ sh seqs, (sh, seqs) ∈ entries →
        checkShardGroup map sh seqs = .ok ()) →
      checkShardsAux map entries = .ok () := by
  intro entries
  induction entries with
  | nil => intro _; rfl
  | cons p rest ih =>
    intro hAll
    unfold checkShardsAux
    rw [hAll p.1 p.2 (List.mem_cons_self p rest)]
    exact ih fun sh seqs hmem => hAll sh seqs (List.mem_cons_of_mem p hmem)

theorem contains_previous_block_unfold (map : List (ShardIdent × List Nat))
    (s : ShardIdent) (p : Nat) :
    (contains_previous_block map s p = true ↔
      ((∃ l r, s.split = some (l, r) ∧
        (shardSetContains map l p = true ∨
         shardSetContains map r p = true)) ∨
       (∃ q, s.merge = some q ∧ shardSetContains map q p = true))) := by
  unfold contains_previous_block
  rcases hsp : s.split with _ | ⟨l, r⟩ <;>
    rcases hmg : s.merge with _ | q <;>
      simp [Bool.or_eq_true] <;>
        aesop

/-- C1: the shardchain step of `check`.  With a shard's seqnos sorted and in
`u32` range: the walk passes exactly when every adjacent pair either has
`next = prev + 1` or `next - 1` is found by `contains_previous_block`; a
failing walk fails at such an unexplained pair with
`InconsistentShardchainBlock` carrying that shard and `next`; a shard with
exactly one block always passes; `contains_previous_block` finds the
predecessor exactly in the `split()` children or in the `merge()` parent;
and the step's iteration over all shard groups surfaces exactly a failing
group's error, succeeding when all groups pass. -/
theorem c1_shardchain_topology_step :
    ∀ (map : List (ShardIdent × List Nat)) (s : ShardIdent)
      (seqnos : List Nat),
      List.Chain' (· < ·) seqnos → (∀ x ∈ seqnos, x < 2 ^ 32) →
      ((checkShardGroup map s seqnos = .ok () ↔
         ∀ pr nx, (pr, nx) ∈ seqnos.zip seqnos.tail →
           nx = pr + 1 ∨ contains_previous_block map s (nx - 1) = true) ∧
       (∀ e, checkShardGroup map s seqnos = .error e →
         ∃ pr nx, (pr, nx) ∈ seqnos.zip seqnos.tail ∧ nx ≠ pr + 1 ∧
           contains_previous_block map s (nx - 1) = false ∧
           e = .InconsistentShardchainBlock s nx) ∧
       (∀ x, checkShardGroup map s [x] = .ok ()) ∧
       (∀ p, contains_previous_block map s p = true ↔
         ((∃ l r, s.split = some (l, r) ∧
           (shardSetContains map l p = true ∨
            shardSetContains map r p = true)) ∨
          (∃ q, s.merge = some q ∧ shardSetContains map q p = true))) ∧
       (∀ entries e, checkShardsAux map entries = .error e →
         ∃ sh seqs, (sh, seqs) ∈ entries ∧
           checkShardGroup map sh seqs = .error e) ∧
       (∀ entries, (∀ sh seqs, (sh, seqs) ∈ entries →
           checkShardGroup map sh seqs = .ok ()) →
         checkShardsAux map entries = .ok ())) := by
  intro map s seqnos hsorted hbound
  refine ⟨?_, ?_, fun x => rfl, contains_previous_block_unfold map s,
    checkShardsAux_error_mem map, checkShardsAux_ok_of_all map⟩
  · cases seqnos with
    | nil => simp [checkShardGroup]
    | cons f rest =>
      exact walkShard_ok_iff map s rest f hsorted
        (fun y hy => hbound y (List.mem_cons_of_mem _ hy))
  · cases seqnos with
    | nil =>
      intro e h
      simp [checkShardGroup] at h
    | cons f rest =>
      intro e h
      exact walkShard_error_pair map s rest f e hsorted
        (fun y hy => hbound y (List.mem_cons_of_mem _ hy)) h

/-- C1 witness: the theorem applied to the concrete unexplained-gap example
(seqnos 5 and 7 in the full basechain shard, nothing explaining 6) and to
the contiguous pair 5, 6. -/
theorem c1_shardchain_topology_step_witness :
    checkShardGroup [(bcShard, [5, 6])] bcShard [5, 6] = .ok () ∧
    checkShardGroup [(bcShard, [5, 7])] bcShard [5, 7] ≠ .ok () :=
  ⟨((c1_shardchain_topology_step [(bcShard, [5, 6])] bcShard [5, 6]
      (List.chain'_pair.mpr (by decide)) (by decide)).1).mpr
      (by
        intro pr nx hmem
        simp at hmem
        rcases hmem with ⟨h1, h2⟩
        subst h1
        subst h2
        exact Or.inl rfl),
   fun h =>
     by
       have hp := ((c1_shardchain_topology_step [(bcShard, [5, 7])] bcShard
         [5, 7] (List.chain'_pair.mpr (by decide)) (by decide)).1).mp h 5 7
         (by simp)
       revert hp
       decide⟩

/-! ## Claim C9: invariant of the masterchain index after assembly -/

theorem mem_insertMc :
    ∀ (m : List (Nat × BlockId)) (k : Nat) (v : BlockId) (s : Nat)
      (id : BlockId),
      (s, id) ∈ insertMc m k v → (s = k ∧ id = v) ∨ (s, id) ∈ m := by
  intro m
  induction m with
  | nil =>
    intro k v s id h
    unfold insertMc at h
    rcases List.mem_cons.mp h with he | hm
    · exact Or.inl (by cases he; exact ⟨rfl, rfl⟩)
    · simp at hm
  | cons p t ih =>
    obtain ⟨k0, v0⟩ := p
    intro k v s id h
    unfold insertMc at h
    split at h
    · rcases List.mem_cons.mp h with he | hm
      · exact Or.inl (by cases he; exact ⟨rfl, rfl⟩)
      · exact Or.inr hm
    · split at h
      · rcases List.mem_cons.mp h with he | hm
        · exact Or.inl (by cases he; exact ⟨rfl, rfl⟩)
        · exact Or.inr (List.mem_cons_of_mem (k0, v0) hm)
      · rcases List.mem_cons.mp h with he | hm
        · exact Or.inr (he ▸ List.mem_cons_self (k0, v0) t)
        · rcases ih k v s id hm with h1 | h2
          · exact Or.inl h1
          · exact Or.inr (List.mem_cons_of_mem (k0, v0) h2)

theorem newLoop_mc_inv (ext : ExtCodecs) (buf : List Nat) :
    ∀ (fuel offset : Nat) (acc a : ArchiveData),
      (∀ s id, (s, id) ∈ acc.mc_block_ids →
        id.seqno = s ∧ id.shard.workchain = -1) →
      newLoop ext buf fuel offset acc = .ok a →
      ∀ s id, (s, id) ∈ a.mc_block_ids →
        id.seqno = s ∧ id.shard.workchain = -1 := by
  intro fuel
  induction fuel with
  | zero =>
    intro offset acc a hinv h
    simp [newLoop] at h
  | succ n ih =>
    intro offset acc a hinv h
    unfold newLoop at h
    split at h
    next => simp at h
    next => simp at h
    next => exact (NewResult.ok.inj h) ▸ hinv
    next name data offset2 =>
      split at h
      next => simp at h
      next => simp at h
      next id hff =>
        split at h
        next e3 heq => simp at h
        next block heq =>
          refine ih _ _ _ ?_ h
          intro s id2 hmem
          by_cases hwc : id.shard.workchain = -1
          · rw [if_pos hwc] at hmem
            rcases mem_insertMc _ _ _ _ _ hmem with ⟨h1, h2⟩ | hold
            · subst h1
              subst h2
              exact ⟨rfl, hwc⟩
            · exact hinv s id2 hold
          · rw [if_neg hwc] at hmem
            exact hinv s id2 hmem
      next id hff =>
        split at h
        next hwc =>
          split at h
          next e3 heq => simp at h
          next proof heq =>
            refine ih _ _ _ ?_ h
            intro s id2 hmem
            rcases mem_insertMc _ _ _ _ _ hmem with ⟨h1, h2⟩ | hold
            · subst h1
              subst h2
              exact ⟨rfl, hwc⟩
            · exact hinv s id2 hold
        next hwc => exact ih _ _ _ hinv h
      next id hff =>
        split at h
        next hwc =>
          split at h
          next e3 heq => simp at h
          next proof heq =>
            refine ih _ _ _ ?_ h
            intro s id2 hmem
            exact hinv s id2 hmem
        next hwc => exact ih _ _ _ hinv h

/-- C9: after every successful assembly, every pair `(s, id)` of the
masterchain index satisfies `id.seqno = s` and
`id.shard.workchain = -1` — the index never holds a shardchain identifier
nor an identifier stored under a foreign seqno. -/
theorem c9_mc_index_invariant :
    ∀ (ext : ExtCodecs) (buf : List Nat) (a : ArchiveData) (s : Nat)
      (id : BlockId),
      ArchiveData.new ext buf = .ok a → (s, id) ∈ a.mc_block_ids →
      id.seqno = s ∧ id.shard.workchain = -1 := by
  intro ext buf a s id hnew hmem
  unfold ArchiveData.new at hnew
  split at hnew
  next => simp at hnew
  next offset hh =>
    refine newLoop_mc_inv ext buf _ offset ⟨[], []⟩ a ?_ hnew s id hmem
    intro s2 id2 h2
    simp at h2

set_option maxRecDepth 100000 in
/-- C9 witness: the theorem applied to the concrete one-entry archive
`bufZ`, whose assembly succeeds with the single masterchain pair
`(0, idZero)`. -/
theorem c9_mc_index_invariant_witness :
    idZero.seqno = 0 ∧ idZero.shard.workchain = -1 :=
  c9_mc_index_invariant extZ bufZ storeZ 0 idZero (by decide) (by decide)

/-! ## Claim C3: codec round-trip — digit and character-class lemmas -/

theorem decDigitVal_decDigitChar (d : Nat) (h : d < 10) :
    decDigitVal (decDigitChar d) = some d := by
  interval_cases d <;> decide

theorem hexDigitVal_hexDigitCharLower (d : Nat) (h : d < 16) :
    hexDigitVal (hexDigitCharLower d) = some d := by
  interval_cases d <;> decide

theorem hexDigitVal_hexDigitCharUpper (d : Nat) (h : d < 16) :
    hexDigitVal (hexDigitCharUpper d) = some d := by
  interval_cases d <;> decide

theorem decDigitChar_toNat (d : Nat) :
    48 ≤ (decDigitChar d).toNat ∧ (decDigitChar d).toNat ≤ 57 := by
  unfold decDigitChar
  split <;> decide

theorem hexDigitCharLower_toNat (d : Nat) :
    (48 ≤ (hexDigitCharLower d).toNat ∧ (hexDigitCharLower d).toNat ≤ 57) ∨
    (97 ≤ (hexDigitCharLower d).toNat ∧ (hexDigitCharLower d).toNat ≤ 102) := by
  unfold hexDigitCharLower
  split <;> decide

theorem hexDigitCharUpper_toNat (d : Nat) :
    (48 ≤ (hexDigitCharUpper d).toNat ∧ (hexDigitCharUpper d).toNat ≤ 57) ∨
    (65 ≤ (hexDigitCharUpper d).toNat ∧ (hexDigitCharUpper d).toNat ≤ 70) := by
  unfold hexDigitCharUpper
  split <;> decide

theorem mem_natDecChars (n : Nat) (c : Char) (h : c ∈ natDecChars n) :
    48 ≤ c.toNat ∧ c.toNat ≤ 57 := by
  unfold natDecChars at h
  split at h
  · simp at h
    subst h
    decide
  · obtain ⟨d, _, hdc⟩ := List.mem_map.mp h
    exact hdc ▸ decDigitChar_toNat d

theorem mem_intDecChars (i : Int) (c : Char) (h : c ∈ intDecChars i) :
    c = '-' ∨ (48 ≤ c.toNat ∧ c.toNat ≤ 57) := by
  unfold intDecChars at h
  split at h
  · rcases List.mem_cons.mp h with he | hm
    · exact Or.inl he
    · exact Or.inr (mem_natDecChars _ c hm)
  · exact Or.inr (mem_natDecChars _ c h)

theorem mem_natHexCharsLower (n : Nat) (c : Char)
    (h : c ∈ natHexCharsLower n) :
    (48 ≤ c.toNat ∧ c.toNat ≤ 57) ∨ (97 ≤ c.toNat ∧ c.toNat ≤ 102) := by
  unfold natHexCharsLower at h
  split at h
  · simp at h
    subst h
    decide
  · obtain ⟨d, _, hdc⟩ := List.mem_map.mp h
    exact hdc ▸ hexDigitCharLower_toNat d

theorem mem_hex16Lower (n : Nat) (c : Char) (h : c ∈ hex16Lower n) :
    (48 ≤ c.toNat ∧ c.toNat ≤ 57) ∨ (97 ≤ c.toNat ∧ c.toNat ≤ 102) := by
  unfold hex16Lower at h
  rcases List.mem_append.mp h with h1 | h2
  · rw [List.eq_of_mem_replicate h1]
    decide
  · exact mem_natHexCharsLower n c h2

theorem mem_bytesHexUpper (bs : List Nat) (c : Char)
    (h : c ∈ bytesHexUpper bs) :
    (48 ≤ c.toNat ∧ c.toNat ≤ 57) ∨ (65 ≤ c.toNat ∧ c.toNat ≤ 70) := by
  unfold bytesHexUpper at h
  obtain ⟨b, _, hc⟩ := List.mem_flatMap.mp h
  rcases List.mem_cons.mp hc with he | hm
  · exact he ▸ hexDigitCharUpper_toNat (b / 16)
  · rcases List.mem_cons.mp hm with he2 | hm2
    · exact he2 ▸ hexDigitCharUpper_toNat (b % 16)
    · simp at hm2

theorem char_ne_of_toNat_lt {c d : Char} (h : c.toNat < d.toNat) : c ≠ d :=
  fun he => absurd (he ▸ rfl) (Nat.ne_of_lt h)

/-! ## Claim C3: codec round-trip — splitting lemmas -/

theorem splitOnChar_not_mem (sep : Char) :
    ∀ (a : List Char), sep ∉ a → splitOnChar sep a = [a] := by
  intro a
  induction a with
  | nil => intro _; rfl
  | cons c t ih =>
    intro h
    unfold splitOnChar
    rw [if_neg fun he => h (List.mem_cons.mpr (Or.inl he.symm)),
      ih fun hm => h (List.mem_cons_of_mem c hm)]

theorem splitOnChar_append (sep : Char) :
    ∀ (a b : List Char), sep ∉ a →
      splitOnChar sep (a ++ sep :: b) = a :: splitOnChar sep b := by
  intro a
  induction a with
  | nil =>
    intro b _
    show splitOnChar sep (sep :: b) = [] :: splitOnChar sep b
    conv_lhs => unfold splitOnChar
    rw [if_pos rfl]
  | cons c t ih =>
    intro b h
    show splitOnChar sep (c :: (t ++ sep :: b)) = (c :: t) :: splitOnChar sep b
    conv_lhs => unfold splitOnChar
    rw [if_neg fun he => h (List.mem_cons.mpr (Or.inl he.symm)),
      ih b fun hm => h (List.mem_cons_of_mem c hm)]

theorem takeWhile_boundary (p : Char → Bool) :
    ∀ (a : List Char) (c : Char) (b : List Char),
      (∀ x ∈ a, p x = true) → p c = false →
      (a ++ c :: b).takeWhile p = a := by
  intro a
  induction a with
  | nil =>
    intro c b _ hc
    show (c :: b).takeWhile p = []
    rw [List.takeWhile_cons, hc]
    rfl
  | cons x t ih =>
    intro c b ha hc
    show ((x :: (t ++ c :: b))).takeWhile p = x :: t
    rw [List.takeWhile_cons, ha x (List.mem_cons_self x t),
      ih c b (fun y hy => ha y (List.mem_cons_of_mem x hy)) hc]
    rfl

theorem stripRParen_concat (l : List Char) : stripRParen (l ++ [')']) = some l := by
  unfold stripRParen
  rw [List.getLast?_concat, if_pos rfl, List.dropLast_concat]

/-! ## Claim C3: codec round-trip — numeric parsing lemmas -/

theorem foldl_digits_map (base : Nat) (dv : Char → Option Nat)
    (dc : Nat → Char) (hdc : ∀ d, d < base → dv (dc d) = some d) :
    ∀ (ds : List Nat) (a : Nat), (∀ d ∈ ds, d < base) →
      List.foldl (fun acc c => acc.bind fun x => (dv c).map (x * base + ·))
        (some a) (ds.map dc) =
      some (List.foldl (fun x d => x * base + d) a ds) := by
  intro ds
  induction ds with
  | nil => intro a _; rfl
  | cons d t ih =>
    intro a hall
    rw [List.map_cons, List.foldl_cons, List.foldl_cons]
    have hstep :
        ((some a).bind fun x => (dv (dc d)).map (x * base + ·)) =
          some (a * base + d) := by
      rw [hdc d (hall d (List.mem_cons_self d t))]
      rfl
    rw [hstep]
    exact ih (a * base + d) fun e he => hall e (List.mem_cons_of_mem d he)

theorem foldl_be_reverse (base : Nat) :
    ∀ (l : List Nat) (a : Nat),
      List.foldl (fun x d => x * base + d) a l.reverse =
        a * base ^ l.length + Nat.ofDigits base l := by
  intro l
  induction l with
  | nil => intro a; simp [Nat.ofDigits_nil]
  | cons d t ih =>
    intro a
    rw [List.reverse_cons, List.foldl_append, ih]
    simp only [List.foldl_cons, List.foldl_nil, Nat.ofDigits_cons,
      List.length_cons]
    ring

theorem foldl_zero_chars (base : Nat) (dv : Char → Option Nat)
    (h0 : dv '0' = some 0) :
    ∀ (k : Nat),
      List.foldl (fun acc c => acc.bind fun x => (dv c).map (x * base + ·))
        (some 0) (List.replicate k '0') = some 0 := by
  intro k
  induction k with
  | zero => rfl
  | succ k2 ih =>
    rw [List.replicate_succ, List.foldl_cons]
    have hstep :
        ((some 0).bind fun x => (dv '0').map (x * base + ·)) = some 0 := by
      rw [h0]
      simp
    rw [hstep]
    exact ih

theorem digitsRevFuel_eq_digits (b : Nat) (hb : 2 ≤ b) :
    ∀ (fuel n : Nat), n < b ^ fuel →
      digitsRevFuel b fuel n = Nat.digits b n := by
  intro fuel
  induction fuel with
  | zero =>
    intro n hn
    have h0 : n = 0 := by
      rw [pow_zero] at hn
      omega
    subst h0
    simp [digitsRevFuel]
  | succ f ih =>
    intro n hn
    unfold digitsRevFuel
    by_cases h0 : n = 0
    · subst h0
      simp
    · rw [if_neg h0,
        Nat.digits_def' (show 1 < b by omega) (Nat.pos_of_ne_zero h0),
        ih (n / b)
          (by
            rw [Nat.div_lt_iff_lt_mul (show 0 < b by omega)]
            rw [pow_succ] at hn
            exact hn)]

theorem digitsRevFuel_ne_nil (b : Nat) (f n : Nat) (h0 : n ≠ 0) :
    digitsRevFuel b (f + 1) n ≠ [] := by
  unfold digitsRevFuel
  rw [if_neg h0]
  simp

theorem parseNatBase_natDecChars (n : Nat) (hn : n < 10 ^ 64) :
    parseNatBase 10 decDigitVal (natDecChars n) = some n := by
  unfold natDecChars
  by_cases h0 : n = 0
  · subst h0
    rw [if_pos rfl]
    decide
  · rw [if_neg h0]
    unfold parseNatBase
    rw [if_neg
      (by
        intro hcontra
        simp only [List.map_eq_nil_iff, List.reverse_eq_nil_iff] at hcontra
        exact digitsRevFuel_ne_nil 10 63 n h0 hcontra)]
    rw [digitsRevFuel_eq_digits 10 (by norm_num) 64 n hn]
    rw [foldl_digits_map 10 decDigitVal decDigitChar decDigitVal_decDigitChar
      (Nat.digits 10 n).reverse 0
      (fun d hd =>
        Nat.digits_lt_base (by norm_num) (List.mem_reverse.mp hd))]
    rw [foldl_be_reverse 10 (Nat.digits 10 n) 0]
    simp [Nat.ofDigits_digits]

theorem parseNatBase_hex16Lower (p : Nat) (hp : p < 2 ^ 64) :
    parseNatBase 16 hexDigitVal (hex16Lower p) = some p := by
  by_cases h0 : p = 0
  · subst h0
    decide
  · unfold hex16Lower natHexCharsLower
    rw [if_neg h0]
    unfold parseNatBase
    rw [if_neg
      (by
        intro hcontra
        rw [List.append_eq_nil] at hcontra
        simp only [List.map_eq_nil_iff, List.reverse_eq_nil_iff]
          at hcontra
        exact digitsRevFuel_ne_nil 16 63 p h0 hcontra.2)]
    rw [List.foldl_append]
    rw [foldl_zero_chars 16 hexDigitVal (by decide)]
    rw [digitsRevFuel_eq_digits 16 (by norm_num) 64 p
      (lt_of_lt_of_le hp (Nat.pow_le_pow_left (by norm_num) 64))]
    rw [foldl_digits_map 16 hexDigitVal hexDigitCharLower
      hexDigitVal_hexDigitCharLower (Nat.digits 16 p).reverse 0
      (fun d hd =>
        Nat.digits_lt_base (by norm_num) (List.mem_reverse.mp hd))]
    rw [foldl_be_reverse 16 (Nat.digits 16 p) 0]
    simp [Nat.ofDigits_digits]

theorem natDecChars_ne_nil (n : Nat) : natDecChars n ≠ [] := by
  unfold natDecChars
  split
  · simp
  next h0 =>
    intro hcontra
    simp only [List.map_eq_nil_iff, List.reverse_eq_nil_iff] at hcontra
    exact digitsRevFuel_ne_nil 10 63 n h0 hcontra

theorem natHexCharsLower_ne_nil (n : Nat) : natHexCharsLower n ≠ [] := by
  unfold natHexCharsLower
  split
  · simp
  next h0 =>
    intro hcontra
    simp only [List.map_eq_nil_iff, List.reverse_eq_nil_iff] at hcontra
    exact digitsRevFuel_ne_nil 16 63 n h0 hcontra

theorem hex16Lower_ne_nil (n : Nat) : hex16Lower n ≠ [] := by
  unfold hex16Lower
  intro hcontra
  rw [List.append_eq_nil] at hcontra
  exact natHexCharsLower_ne_nil n hcontra.2

theorem u32FromStr_cons (c : Char) (t : List Char) :
    u32FromStr (c :: t) =
      (parseNatBase 10 decDigitVal (if c = '+' then t else c :: t)).bind
        fun v => if v < 2 ^ 32 then some v else none := rfl

theorem i32FromStr_cons (c : Char) (t : List Char) :
    i32FromStr (c :: t) =
      if c = '-' then
        (parseNatBase 10 decDigitVal t).bind fun v =>
          if v ≤ 2 ^ 31 then some (-(v : Int)) else none
      else if c = '+' then
        (parseNatBase 10 decDigitVal t).bind fun v =>
          if v < 2 ^ 31 then some (v : Int) else none
      else
        (parseNatBase 10 decDigitVal (c :: t)).bind fun v =>
          if v < 2 ^ 31 then some (v : Int) else none := rfl

theorem u64FromHexStr_cons (c : Char) (t : List Char) :
    u64FromHexStr (c :: t) =
      (parseNatBase 16 hexDigitVal (if c = '+' then t else c :: t)).bind
        fun v => if v < 2 ^ 64 then some v else none := rfl

theorem u32FromStr_natDecChars (n : Nat) (hn : n < 2 ^ 32) :
    u32FromStr (natDecChars n) = some n := by
  cases hshape : natDecChars n with
  | nil => exact absurd hshape (natDecChars_ne_nil n)
  | cons c t =>
    have hcls := mem_natDecChars n c (hshape ▸ List.mem_cons_self c t)
    have hplus : c ≠ '+' := by
      intro he
      rw [he] at hcls
      exact absurd hcls (by decide)
    rw [u32FromStr_cons, if_neg hplus, ← hshape,
      parseNatBase_natDecChars n (by omega : n < 10 ^ 64)]
    show (if n < 2 ^ 32 then some n else none) = some n
    rw [if_pos hn]

theorem i32FromStr_intDecChars (wc : Int) (h1 : -(2 ^ 31) ≤ wc)
    (h2 : wc < 2 ^ 31) : i32FromStr (intDecChars wc) = some wc := by
  unfold intDecChars
  by_cases hneg : wc < 0
  · rw [if_pos hneg, i32FromStr_cons, if_pos rfl,
      parseNatBase_natDecChars wc.natAbs (by omega : wc.natAbs < 10 ^ 64)]
    have hle : wc.natAbs ≤ 2 ^ 31 := by omega
    show (if wc.natAbs ≤ 2 ^ 31 then some (-(wc.natAbs : Int)) else none) =
      some wc
    rw [if_pos hle]
    congr 1
    omega
  · rw [if_neg hneg]
    cases hshape : natDecChars wc.toNat with
    | nil => exact absurd hshape (natDecChars_ne_nil wc.toNat)
    | cons c t =>
      have hcls := mem_natDecChars wc.toNat c
        (hshape ▸ List.mem_cons_self c t)
      have hminus : c ≠ '-' := by
        intro he
        rw [he] at hcls
        exact absurd hcls (by decide)
      have hplus : c ≠ '+' := by
        intro he
        rw [he] at hcls
        exact absurd hcls (by decide)
      rw [i32FromStr_cons, if_neg hminus, if_neg hplus, ← hshape,
        parseNatBase_natDecChars wc.toNat (by omega : wc.toNat < 10 ^ 64)]
      have hlt : wc.toNat < 2 ^ 31 := by omega
      show (if wc.toNat < 2 ^ 31 then some ((wc.toNat : Int)) else none) =
        some wc
      rw [if_pos hlt]
      congr 1
      omega

theorem u64FromHexStr_hex16Lower (p : Nat) (hp : p < 2 ^ 64) :
    u64FromHexStr (hex16Lower p) = some p := by
  cases hshape : hex16Lower p with
  | nil => exact absurd hshape (hex16Lower_ne_nil p)
  | cons c t =>
    have hcls := mem_hex16Lower p c (hshape ▸ List.mem_cons_self c t)
    have hplus : c ≠ '+' := by
      intro he
      rw [he] at hcls
      exact absurd hcls (by decide)
    rw [u64FromHexStr_cons, if_neg hplus, ← hshape,
      parseNatBase_hex16Lower p hp]
    show (if p < 2 ^ 64 then some p else none) = some p
    rw [if_pos hp]

theorem hexDecodeChars_bytesHexUpper :
    ∀ (bs : List Nat), (∀ b ∈ bs, b < 256) →
      hexDecodeChars (bytesHexUpper bs) = some bs := by
  intro bs
  induction bs with
  | nil => intro _; rfl
  | cons b t ih =>
    intro hall
    have hb : b < 256 := hall b (List.mem_cons_self b t)
    show hexDecodeChars
        (hexDigitCharUpper (b / 16) :: hexDigitCharUpper (b % 16) ::
          bytesHexUpper t) = some (b :: t)
    unfold hexDecodeChars
    rw [hexDigitVal_hexDigitCharUpper (b / 16) (by omega),
      hexDigitVal_hexDigitCharUpper (b % 16) (by omega),
      ih fun e he => hall e (List.mem_cons_of_mem b he)]
    show some ((16 * (b / 16) + b % 16) :: t) = some (b :: t)
    have hbb : 16 * (b / 16) + b % 16 = b := by omega
    rw [hbb]

/-! ## Claim C3: codec round-trip — main lemmas -/

theorem sep_not_mem_natDecChars (c : Char)
    (hc : ¬(48 ≤ c.toNat ∧ c.toNat ≤ 57)) (n : Nat) : c ∉ natDecChars n :=
  fun h => absurd (mem_natDecChars n c h) hc

theorem sep_not_mem_intDecChars (c : Char)
    (hc : ¬(c = '-' ∨ (48 ≤ c.toNat ∧ c.toNat ≤ 57))) (i : Int) :
    c ∉ intDecChars i :=
  fun h => absurd (mem_intDecChars i c h) hc

theorem sep_not_mem_hex16Lower (c : Char)
    (hc : ¬((48 ≤ c.toNat ∧ c.toNat ≤ 57) ∨
      (97 ≤ c.toNat ∧ c.toNat ≤ 102))) (n : Nat) : c ∉ hex16Lower n :=
  fun h => absurd (mem_hex16Lower n c h) hc

theorem sep_not_mem_bytesHexUpper (c : Char)
    (hc : ¬((48 ≤ c.toNat ∧ c.toNat ≤ 57) ∨
      (65 ≤ c.toNat ∧ c.toNat ≤ 70))) (bs : List Nat) :
    c ∉ bytesHexUpper bs :=
  fun h => absurd (mem_bytesHexUpper bs c h) hc

theorem parse_block_id_filename (id : BlockId) (h : ValidBlockId id) :
    parse_block_id id.filename = .ok id := by
  obtain ⟨hwc1, hwc2, hpfx1, hpfx2, hpfx3, hseq, hrlen, hrbytes, hflen,
    hfbytes⟩ := h
  have hA : (':' : Char) ∉
      ['('] ++ intDecChars id.shard.workchain ++ [','] ++
        hex16Lower id.shard.pfx ++ [','] ++ natDecChars id.seqno ++ [')'] := by
    intro hmem
    simp only [List.mem_append, List.mem_cons, List.not_mem_nil] at hmem
    rcases hmem with ((((((h1 | h1) | h1) | h1) | h1) | h1) | h1)
    · exact absurd h1 (by decide)
    · exact absurd (mem_intDecChars _ _ h1) (by decide)
    · exact absurd h1 (by decide)
    · exact absurd (mem_hex16Lower _ _ h1) (by decide)
    · exact absurd h1 (by decide)
    · exact absurd (mem_natDecChars _ _ h1) (by decide)
    · rcases h1 with h1 | h1
      · exact absurd h1 (by decide)
      · exact h1
  have hassoc : id.filename =
      (['('] ++ intDecChars id.shard.workchain ++ [','] ++
        hex16Lower id.shard.pfx ++ [','] ++ natDecChars id.seqno ++ [')']) ++
      ':' :: (bytesHexUpper id.root_hash ++ ':' ::
        bytesHexUpper id.file_hash) := by
    unfold BlockId.filename
    simp [List.append_assoc]
  have hcolon : splitOnChar ':' id.filename =
      [['('] ++ intDecChars id.shard.workchain ++ [','] ++
        hex16Lower id.shard.pfx ++ [','] ++ natDecChars id.seqno ++ [')'],
       bytesHexUpper id.root_hash, bytesHexUpper id.file_hash] := by
    rw [hassoc, splitOnChar_append ':' _ _ hA,
      splitOnChar_append ':' _ _
        (sep_not_mem_bytesHexUpper ':' (by decide) id.root_hash),
      splitOnChar_not_mem ':'
        (bytesHexUpper id.file_hash)
        (sep_not_mem_bytesHexUpper ':' (by decide) id.file_hash)]
  have hassoc2 :
      ['('] ++ intDecChars id.shard.workchain ++ [','] ++
        hex16Lower id.shard.pfx ++ [','] ++ natDecChars id.seqno ++ [')'] =
      ('(' :: intDecChars id.shard.workchain) ++ ',' ::
        (hex16Lower id.shard.pfx ++ ',' ::
          (natDecChars id.seqno ++ [')'])) := by
    simp [List.append_assoc]
  have hB : (',' : Char) ∉ '(' :: intDecChars id.shard.workchain := by
    intro hmem
    rcases List.mem_cons.mp hmem with h1 | h1
    · exact absurd h1 (by decide)
    · exact absurd (mem_intDecChars _ _ h1) (by decide)
  have hC : (',' : Char) ∉ natDecChars id.seqno ++ [')'] := by
    intro hmem
    rcases List.mem_append.mp hmem with h1 | h1
    · exact absurd (mem_natDecChars _ _ h1) (by decide)
    · simp at h1
  have hcomma : splitOnChar ','
      (['('] ++ intDecChars id.shard.workchain ++ [','] ++
        hex16Lower id.shard.pfx ++ [','] ++ natDecChars id.seqno ++ [')']) =
      ['(' :: intDecChars id.shard.workchain, hex16Lower id.shard.pfx,
       natDecChars id.seqno ++ [')']] := by
    rw [hassoc2, splitOnChar_append ',' _ _ hB,
      splitOnChar_append ',' _ _
        (sep_not_mem_hex16Lower ',' (by decide) id.shard.pfx),
      splitOnChar_not_mem ',' _ hC]
  have hnew : ShardIdent.new id.shard.workchain id.shard.pfx =
      some id.shard := by
    unfold ShardIdent.new
    rw [if_pos ⟨hwc1, hwc2, hpfx1, hpfx2, hpfx3⟩]
  unfold parse_block_id
  simp only [hcolon, hcomma,
    i32FromStr_intDecChars id.shard.workchain hwc1 hwc2,
    u64FromHexStr_hex16Lower id.shard.pfx hpfx1,
    stripRParen_concat (natDecChars id.seqno),
    u32FromStr_natDecChars id.seqno hseq, hnew,
    hexDecodeChars_bytesHexUpper id.root_hash hrbytes,
    hexDecodeChars_bytesHexUpper id.file_hash hfbytes,
    hrlen, hflen]
  simp

theorem filename_cons_shape (id : BlockId) :
    id.filename = '(' ::
      (intDecChars id.shard.workchain ++ ([','] ++
        (hex16Lower id.shard.pfx ++ ([','] ++
          (natDecChars id.seqno ++ ([')'] ++ ([':'] ++
            (bytesHexUpper id.root_hash ++ ([':'] ++
              bytesHexUpper id.file_hash))))))))) := by
  unfold BlockId.filename
  simp [List.append_assoc]

theorem takeWhile_tag_filename (tag : List Char) (id : BlockId)
    (htag : ∀ x ∈ tag, (fun c => decide (c ≠ '(')) x = true) :
    (tag ++ id.filename).takeWhile (fun c => c ≠ '(') = tag := by
  rw [filename_cons_shape]
  exact takeWhile_boundary _ tag '(' _ htag (by decide)

theorem length_tag_filename_ne (tag : List Char) (id : BlockId) :
    ¬(tag.length = (tag ++ id.filename).length) := by
  intro hcontra
  rw [List.length_append, filename_cons_shape, List.length_cons] at hcontra
  omega

/-- C3: for every kind (`Block`, `Proof`, `ProofLink`) and every valid
block identifier — including all-zero and all-FF hashes — decoding the
encoded filename succeeds and returns exactly the original kind and
identifier: `from_filename (filename e) = .ok e`. -/
theorem c3_codec_roundtrip :
    ∀ (e : PackageEntryId BlockId), ValidBlockId e.blockId →
      from_filename (PackageEntryId.filename e) = .ok e := by
  intro e hv
  cases e with
  | Block id =>
    show from_filename (entryTagBlock ++ id.filename) = .ok (.Block id)
    unfold from_filename
    rw [takeWhile_tag_filename entryTagBlock id (by decide),
      if_neg (length_tag_filename_ne entryTagBlock id),
      if_pos rfl, List.drop_left, parse_block_id_filename id hv]
    rfl
  | Proof id =>
    show from_filename (entryTagProof ++ id.filename) = .ok (.Proof id)
    unfold from_filename
    rw [takeWhile_tag_filename entryTagProof id (by decide),
      if_neg (length_tag_filename_ne entryTagProof id),
      if_neg (by decide), if_pos rfl, List.drop_left,
      parse_block_id_filename id hv]
    rfl
  | ProofLink id =>
    show from_filename (entryTagProofLink ++ id.filename) =
      .ok (.ProofLink id)
    unfold from_filename
    rw [takeWhile_tag_filename entryTagProofLink id (by decide),
      if_neg (length_tag_filename_ne entryTagProofLink id),
      if_neg (by decide), if_neg (by decide), if_pos rfl, List.drop_left,
      parse_block_id_filename id hv]
    rfl

set_option maxRecDepth 100000 in
/-- C3 witness: the theorem applied to all three kinds at the boundary
identifiers with all-zero and all-FF hashes. -/
theorem c3_codec_roundtrip_witness :
    from_filename (PackageEntryId.filename (.Block idZero)) =
      .ok (.Block idZero) ∧
    from_filename (PackageEntryId.filename (.Proof idZero)) =
      .ok (.Proof idZero) ∧
    from_filename (PackageEntryId.filename (.ProofLink idFF)) =
      .ok (.ProofLink idFF) :=
  ⟨c3_codec_roundtrip (.Block idZero) (by decide),
   c3_codec_roundtrip (.Proof idZero) (by decide),
   c3_codec_roundtrip (.ProofLink idFF) (by decide)⟩

end EverArchive
